import Mathlib

/-!
Verification development for the KeyPy duplicate-detection and
interactive-optimization engine.

The embedding models, from the repository sources:
  - src/keypy/core/duplicate_finder.py  (DuplicateFinder, DuplicateGroup,
    DuplicateReport, normalize_url, normalize_username, find_duplicates,
    create_backup)
  - src/keypy/cli/main.py               (the optimize command workflow)
  - src/keypy/core/database.py          (DatabaseManager.delete_entry)

Python strings are modelled as lists of natural-number code points
(PyStr := List Nat).  The stdlib urllib.parse.urlparse function, an external
collaborator of the core, is modelled after the CPython implementation of
urlsplit/urlparse (scheme split, netloc split with the bracket-mismatch
ValueError, fragment split, query split, params split, removal of tab, CR
and LF characters, and the WHATWG leading-control-or-space strip).  The
str.lower and str.strip methods are modelled on the ASCII range, which is
the range the specification fixes (section 4.1: simple lowercasing, bit
for bit on ASCII).
-/

deriving instance DecidableEq for Except

namespace KeyPy

/-- A Python string: a list of unicode code points. -/
abbrev PyStr := List Nat

/-- Convert a Lean string literal to the PyStr model. -/
def pystr (s : String) : PyStr := s.data.map Char.toNat

/-- Whitespace characters recognised by str.strip (ASCII range). -/
def isPySpace (c : Nat) : Bool := c = 32 || c = 9 || c = 10 || c = 13 || c = 11 || c = 12

/-- Model of str.strip with no arguments: drop whitespace from both ends. -/
def pyStrip (s : PyStr) : PyStr :=
  ((s.dropWhile isPySpace).reverse.dropWhile isPySpace).reverse

/-- Model of str.lower on one code point (ASCII range). -/
def pyLowerChar (c : Nat) : Nat := if 65 ≤ c ∧ c ≤ 90 then c + 32 else c

/-- Model of str.lower. -/
def pyLower (s : PyStr) : PyStr := s.map pyLowerChar

/-! ## The urllib.parse model -/

/-- Characters below or equal to 0x20: the WHATWG C0-control-or-space set
removed from the start of a url by urlsplit. -/
def isC0OrSpace (c : Nat) : Bool := c ≤ 32

/-- Tab, CR and LF: the unsafe url bytes removed everywhere by urlsplit. -/
def isTabCrLf (c : Nat) : Bool := c = 9 || c = 13 || c = 10

/-- The cleaning urlsplit applies to its argument before parsing. -/
def cleanUrl (s : PyStr) : PyStr :=
  (s.dropWhile isC0OrSpace).filter (fun c => !isTabCrLf c)

/-- ASCII letter. -/
def isAsciiAlphaN (c : Nat) : Bool := (65 ≤ c && c ≤ 90) || (97 ≤ c && c ≤ 122)

/-- ASCII digit. -/
def isAsciiDigitN (c : Nat) : Bool := 48 ≤ c && c ≤ 57

/-- Characters allowed after the first one in a url scheme. -/
def isSchemeChar (c : Nat) : Bool :=
  isAsciiAlphaN c || isAsciiDigitN c || c = 43 || c = 45 || c = 46

/-- Split a list at the first occurrence of the code point c.  Returns the
part before and the part after, or none when c does not occur. -/
def splitOnce (c : Nat) : PyStr → Option (PyStr × PyStr)
  | [] => none
  | d :: t =>
      if d = c then some ([], t)
      else (splitOnce c t).map (fun p => (d :: p.1, p.2))

/-- The scheme split step of urlsplit: if the part before the first colon is
nonempty, starts with an ASCII letter and has only scheme characters after
it, it is the (lowercased) scheme; otherwise the url is left whole. -/
def schemeSplit (u : PyStr) : PyStr × PyStr :=
  match splitOnce 58 u with
  | none => ([], u)
  | some (a, b) =>
      if a ≠ [] ∧ isAsciiAlphaN a.headI ∧ a.tail.all isSchemeChar
      then (pyLower a, b)
      else ([], u)

/-- Delimiters ending the netloc portion: slash, question mark, hash. -/
def isNetlocDelim (c : Nat) : Bool := c = 47 || c = 63 || c = 35

/-- The condition under which urlsplit raises ValueError (Invalid IPv6 URL):
one bracket present in the netloc without the other. -/
def bracketMismatch (nl : PyStr) : Bool :=
  (decide (91 ∈ nl) && !(decide (93 ∈ nl))) || (decide (93 ∈ nl) && !(decide (91 ∈ nl)))

/-- Split off a fragment at the first hash. -/
def fragSplit (s : PyStr) : PyStr × PyStr :=
  match splitOnce 35 s with
  | none => (s, [])
  | some p => p

/-- Split off a query at the first question mark. -/
def querySplit (s : PyStr) : PyStr × PyStr :=
  match splitOnce 63 s with
  | none => (s, [])
  | some p => p

/-- Result of urlsplit. -/
structure SplitResult where
  scheme : PyStr
  netloc : PyStr
  pathRaw : PyStr
  query : PyStr
  fragment : PyStr
deriving DecidableEq

/-- Model of urllib.parse.urlsplit.  An error value models the ValueError
raised on a bracket mismatch in the netloc. -/
def urlsplit (url0 : PyStr) : Except Unit SplitResult :=
  let url1 := cleanUrl url0
  let sp := schemeSplit url1
  if sp.2.take 2 = [47, 47] then
    let netloc := (sp.2.drop 2).takeWhile (fun c => !isNetlocDelim c)
    let rest2 := (sp.2.drop 2).dropWhile (fun c => !isNetlocDelim c)
    if bracketMismatch netloc then Except.error ()
    else
      let fq := fragSplit rest2
      let pq := querySplit fq.1
      Except.ok ⟨sp.1, netloc, pq.1, pq.2, fq.2⟩
  else
    let fq := fragSplit sp.2
    let pq := querySplit fq.1
    Except.ok ⟨sp.1, [], pq.1, pq.2, fq.2⟩

/-- The last slash-separated segment of a path. -/
def lastSeg (p : PyStr) : PyStr :=
  (p.reverse.takeWhile (fun c => !(c == 47))).reverse

/-- Model of urllib.parse _splitparams: split params off the last path
segment at a semicolon. -/
def paramsSplit (p : PyStr) : PyStr × PyStr :=
  if 47 ∈ p then
    let seg := lastSeg p
    match splitOnce 59 seg with
    | none => (p, [])
    | some (a, b) => (p.take (p.length - seg.length) ++ a, b)
  else
    match splitOnce 59 p with
    | none => (p, [])
    | some (a, b) => (a, b)

/-- Result of urlparse. -/
structure ParseResult where
  scheme : PyStr
  netloc : PyStr
  path : PyStr
  params : PyStr
  query : PyStr
  fragment : PyStr
deriving DecidableEq

/-- Model of urllib.parse.urlparse: urlsplit plus the params split. -/
def urlparse (u : PyStr) : Except Unit ParseResult :=
  match urlsplit u with
  | Except.error e => Except.error e
  | Except.ok r =>
      let pp := paramsSplit r.pathRaw
      Except.ok ⟨r.scheme, r.netloc, pp.1, pp.2, r.query, r.fragment⟩

/-! ## DuplicateFinder.normalize_url and normalize_username
(duplicate_finder.py lines 79-131) -/

/-- The literal www. from the source. -/
def wwwDot : PyStr := pystr "www."

/-- The literal :// used to rebuild the normalized url. -/
def schemeSep : PyStr := pystr "://"

/-- The literal https:// prepended to scheme-less urls. -/
def httpsPre : PyStr := pystr "https://"

/-- domain.startswith(www.) followed by domain[4:], from the source. -/
def stripWww (d : PyStr) : PyStr := if d.take 4 = wwwDot then d.drop 4 else d

/-- path.rstrip(slash) if path is not a bare slash else the empty string,
from the source. -/
def normPath (p : PyStr) : PyStr :=
  if p = [47] then [] else (p.reverse.dropWhile (fun c => c == 47)).reverse

/-- Reconstruction step of normalize_url: scheme ++ :// ++ lowercased
www-stripped netloc ++ normalized path. -/
def rebuild (r : ParseResult) : PyStr :=
  r.scheme ++ schemeSep ++ stripWww (pyLower r.netloc) ++ normPath r.path

/-- Model of DuplicateFinder.normalize_url (duplicate_finder.py 79-116).
The fallback branches model the except-clause returning url.lower() on a
parse failure; note the url variable has already been lowercased, stripped
and possibly had https:// prepended at that point. -/
def normalize_url (url : PyStr) : PyStr :=
  if url = [] ∨ pyStrip url = [] then []
  else
    let u := pyStrip (pyLower url)
    match urlparse u with
    | Except.error _ => pyLower u
    | Except.ok parsed =>
        if parsed.scheme = [] then
          let u2 := httpsPre ++ u
          match urlparse u2 with
          | Except.error _ => pyLower u2
          | Except.ok parsed2 => rebuild parsed2
        else rebuild parsed

/-- Model of normalize_url on an optional url (None maps to the empty
string, as the falsiness test in the source does). -/
def normalize_url_opt : Option PyStr → PyStr
  | none => []
  | some u => normalize_url u

/-- Model of DuplicateFinder.normalize_username (duplicate_finder.py
118-131). -/
def normalize_username : Option PyStr → PyStr
  | none => []
  | some u => if u = [] then [] else pyStrip (pyLower u)

/-! ## Data model and find_duplicates (duplicate_finder.py 9-163) -/

/-- A credential record as consumed by the finder: the fields the core
reads.  Optional fields model attributes that may be None. -/
structure Entry where
  title : PyStr
  username : Option PyStr
  password : PyStr
  url : Option PyStr
deriving DecidableEq

/-- A placeholder entry used only as the default of a guarded list index. -/
def anyEntry : Entry := ⟨[], none, [], none⟩

/-- The grouping key of an entry: (normalize_url(url), normalize_username
(username)), from find_duplicates. -/
def entryKey (e : Entry) : PyStr × PyStr :=
  (normalize_url_opt e.url, normalize_username e.username)

/-- Model of DuplicateGroup._check_different_passwords: more than one
distinct password among the entries. -/
def checkDifferentPasswords (entries : List Entry) : Bool :=
  if entries.length ≤ 1 then false
  else decide (1 < (entries.map (fun e => e.password)).dedup.length)

/-- Model of DuplicateGroup (duplicate_finder.py 9-31). -/
structure DuplicateGroup where
  url : PyStr
  username : PyStr
  entries : List Entry
  has_different_passwords : Bool
deriving DecidableEq

/-- Model of DuplicateGroup.__init__. -/
def mkGroup (url username : PyStr) (entries : List Entry) : DuplicateGroup :=
  ⟨url, username, entries, checkDifferentPasswords entries⟩

/-- Model of DuplicateReport (duplicate_finder.py 42-56).  The aggregate
fields are computed by the constructor; redundant_entries is an integer
difference. -/
structure DuplicateReport where
  total_entries : Nat
  duplicate_groups : List DuplicateGroup
  total_duplicates : Nat
  redundant_entries : Int
deriving DecidableEq

/-- Model of DuplicateReport.__init__. -/
def mkReport (total_entries : Nat) (groups : List DuplicateGroup) : DuplicateReport :=
  let td : Nat := (groups.map (fun g => g.entries.length)).sum
  ⟨total_entries, groups, td, (td : Int) - (groups.length : Int)⟩

/-- One step of the grouping loop: append the entry to the bucket of its
key, creating the bucket at the end when the key is new.  This models one
iteration of groups_dict[key].append(entry) over an insertion-ordered
dict. -/
def addToGroups (k : PyStr × PyStr) (e : Entry) :
    List ((PyStr × PyStr) × List Entry) → List ((PyStr × PyStr) × List Entry)
  | [] => [(k, [e])]
  | (k', es) :: t =>
      if k' = k then (k', es ++ [e]) :: t else (k', es) :: addToGroups k e t

/-- The grouping loop of find_duplicates (duplicate_finder.py 144-152). -/
def groupByKey (entries : List Entry) : List ((PyStr × PyStr) × List Entry) :=
  entries.foldl (fun acc e => addToGroups (entryKey e) e acc) []

/-- Insert a group into a list sorted descending by size, keeping it after
every group of greater or equal size it is inserted behind only when that
group is strictly larger: the insertion point is before the first group of
less or equal size.  Composed over the list this computes exactly the
stable descending sort that list.sort(key=len(entries), reverse=True)
performs. -/
def insertBySize (g : DuplicateGroup) : List DuplicateGroup → List DuplicateGroup
  | [] => [g]
  | h :: t =>
      if g.entries.length < h.entries.length then h :: insertBySize g t
      else g :: h :: t

/-- Stable sort, descending by group size (duplicate_finder.py 161). -/
def sortBySizeDesc : List DuplicateGroup → List DuplicateGroup
  | [] => []
  | g :: gs => insertBySize g (sortBySizeDesc gs)

/-- The duplicate groups before sorting: buckets of size at least 2, in
key-discovery order (duplicate_finder.py 154-158). -/
def dupGroupsOf (entries : List Entry) : List DuplicateGroup :=
  ((groupByKey entries).filter (fun kl => decide (1 < kl.2.length))).map
    (fun kl => mkGroup kl.1.1 kl.1.2 kl.2)

/-- Model of DuplicateFinder.find_duplicates on the list of entries of a
loaded store (duplicate_finder.py 133-163). -/
def find_duplicates_entries (entries : List Entry) : DuplicateReport :=
  mkReport entries.length (sortBySizeDesc (dupGroupsOf entries))

/-- Model of DuplicateFinder.find_duplicates including the store handle.
The finder keeps the handle passed to its constructor without a None
guard; self.kp.entries on a None handle raises AttributeError, modelled
as an error value. -/
def find_duplicates (kp : Option (List Entry)) : Except Unit DuplicateReport :=
  match kp with
  | none => Except.error ()
  | some entries => Except.ok (find_duplicates_entries entries)

/-- First-seen order of the distinct grouping keys of a record list: the
discovery order of the buckets of an insertion-ordered dict. -/
def keysInOrder : List Entry → List (PyStr × PyStr)
  | [] => []
  | e :: es => entryKey e :: (keysInOrder es).filter (fun k => decide (k ≠ entryKey e))

/-! ## The interactive optimizer (main.py, optimize command) -/

/-- A user answer at a group prompt, already tokenized: the q and s
commands, an integer, or anything else (which the source re-prompts on,
as it does on an out-of-range integer). -/
inductive RawChoice where
  | q
  | s
  | num (n : Int)
  | other
deriving DecidableEq

/-- An audit log line (main.py 543 and 559): one line per skip or
keep-and-delete decision. -/
inductive AuditLine where
  | skippedLine (url username : PyStr)
  | keptLine (title : PyStr) (deletedCount : Nat) (url username : PyStr)
deriving DecidableEq

/-- The outcome of the per-group while loop. -/
inductive GroupOutcome where
  | quitChosen
  | skipChosen
  | keepChosen (k : Nat)
deriving DecidableEq

/-- The while loop around click.prompt for one group of n entries: invalid
answers (non-integers and out-of-range integers) re-prompt; returns none
when the modelled input stream is exhausted. -/
def promptLoop (n : Nat) : List RawChoice → Option (GroupOutcome × List RawChoice)
  | [] => none
  | c :: rest =>
      match c with
      | RawChoice.q => some (GroupOutcome.quitChosen, rest)
      | RawChoice.s => some (GroupOutcome.skipChosen, rest)
      | RawChoice.num k =>
          if 1 ≤ k ∧ k ≤ (n : Int) then some (GroupOutcome.keepChosen k.toNat, rest)
          else promptLoop n rest
      | RawChoice.other => promptLoop n rest

/-- The group review loop (main.py 508-565), accumulating entries_to_delete
and audit_log.  Returns none when the input stream is exhausted (a
modelling artifact: the source blocks for input), some none when the user
quits, and some (some (marks, audit)) when all groups are processed. -/
def reviewGroups :
    List DuplicateGroup → List RawChoice → List Entry → List AuditLine →
    Option (Option (List Entry × List AuditLine))
  | [], _, marks, audit => some (some (marks, audit))
  | g :: gs, inputs, marks, audit =>
      match promptLoop g.entries.length inputs with
      | none => none
      | some (GroupOutcome.quitChosen, _) => some none
      | some (GroupOutcome.skipChosen, rest) =>
          reviewGroups gs rest marks (audit ++ [AuditLine.skippedLine g.url g.username])
      | some (GroupOutcome.keepChosen k, rest) =>
          reviewGroups gs rest (marks ++ g.entries.eraseIdx (k - 1))
            (audit ++ [AuditLine.keptLine ((g.entries.getD (k - 1) anyEntry).title)
              (g.entries.length - 1) g.url g.username])

/-- The outcome of one run of the optimize command, after the database has
been opened and the report computed. -/
inductive OptimizeResult where
  | noDuplicates
  | backupFailed
  | stuck
  | quitSession
  | nothingMarked
  | preview
  | declined
  | applied (deleted : List Entry) (deletedCount : Nat) (auditSaved : Bool)
deriving DecidableEq

/-- The entries whose deletion was actually executed in a run: empty on
every early exit. -/
def OptimizeResult.deletedEntries : OptimizeResult → List Entry
  | OptimizeResult.applied d _ _ => d
  | _ => []

/-- Whether the audit log file was written during the run. -/
def OptimizeResult.auditSaved : OptimizeResult → Bool
  | OptimizeResult.applied _ _ s => s
  | _ => false

/-- Model of the optimize command from the duplicate report on
(main.py 483-616).  Parameters: the duplicate groups of the report, the
dry-run flag, whether create_backup succeeds, the tokenized user input
stream, the answer to the final confirmation, and, for each entry, whether
db_manager.delete_entry on it returns True. -/
def optimize (groups : List DuplicateGroup) (dryRun backupOk : Bool)
    (inputs : List RawChoice) (confirmAnswer : Bool) (deleteOk : Entry → Bool) :
    OptimizeResult :=
  if groups = [] then OptimizeResult.noDuplicates
  else if ¬dryRun ∧ ¬backupOk then OptimizeResult.backupFailed
  else
    match reviewGroups groups inputs [] [] with
    | none => OptimizeResult.stuck
    | some none => OptimizeResult.quitSession
    | some (some (marks, audit)) =>
        if marks = [] then OptimizeResult.nothingMarked
        else if dryRun then OptimizeResult.preview
        else if ¬confirmAnswer then OptimizeResult.declined
        else
          let deleted := marks.filter deleteOk
          OptimizeResult.applied deleted deleted.length (!audit.isEmpty)

/-! ## DatabaseManager.delete_entry and the deletion loop
(database.py 203-230, main.py 593-599) -/

/-- An entry of the store model for deletion claims: an identity and the
name of the group holding it. -/
structure KpEntry where
  eid : Nat
  group : PyStr
deriving DecidableEq

/-- A loaded PyKeePass database: its entries with their groups. -/
structure KpDb where
  entries : List KpEntry
deriving DecidableEq

/-- The recycle bin group name used by the store. -/
def recycleBinName : PyStr := pystr "Recycle Bin"

/-- Model of kp.trash_entry: move the entry to the recycle bin group.  The
entry remains in the database. -/
def trash_entry (db : KpDb) (eid : Nat) : KpDb :=
  ⟨db.entries.map (fun e => if e.eid = eid then ⟨e.eid, recycleBinName⟩ else e)⟩

/-- Model of kp.delete_entry: remove the entry permanently. -/
def permanent_delete (db : KpDb) (eid : Nat) : KpDb :=
  ⟨db.entries.filter (fun e => decide (e.eid ≠ eid))⟩

/-- The database manager: the in-memory store handle and the snapshot last
persisted to disk by kp.save(). -/
structure DbManager where
  kp : Option KpDb
  saved : Option KpDb
deriving DecidableEq

/-- Model of DatabaseManager.delete_entry (database.py 203-230).  The ok
predicate models whether the store operation raises; on success the store
is mutated and saved immediately.  use_recycle_bin defaults to true at
every call site of the optimize workflow. -/
def delete_entry (ok : Nat → Bool) (m : DbManager) (eid : Nat)
    (use_recycle_bin : Bool) : DbManager × Bool :=
  match m.kp with
  | none => (m, false)
  | some db =>
      if ok eid then
        let db' := if use_recycle_bin then trash_entry db eid else permanent_delete db eid
        (⟨some db', some db'⟩, true)
      else (m, false)

/-- One iteration of the deletion loop: delete with the default
use_recycle_bin mode and count the success. -/
def deletionStep (ok : Nat → Bool) (acc : DbManager × Nat) (eid : Nat) :
    DbManager × Nat :=
  let r := delete_entry ok acc.1 eid true
  (r.1, acc.2 + if r.2 then 1 else 0)

/-- The deletion loop of the optimize command (main.py 593-599): each entry
is deleted with the default mode and the count of successes is kept. -/
def applyDeletions (ok : Nat → Bool) (m : DbManager) (eids : List Nat) :
    DbManager × Nat :=
  eids.foldl (deletionStep ok) (m, 0)

/-! ## create_backup and the file system model
(duplicate_finder.py 165-180) -/

/-- A file system: an association from paths to byte contents, plus the set
of destination paths that can be written. -/
structure Fs where
  files : List (PyStr × List Nat)
  writable : List PyStr
deriving DecidableEq

/-- Read a file. -/
def readFile (fs : Fs) (p : PyStr) : Option (List Nat) :=
  (fs.files.find? (fun f => decide (f.1 = p))).map (fun f => f.2)

/-- Write a file, replacing any previous content. -/
def writeFile (fs : Fs) (p : PyStr) (content : List Nat) : Fs :=
  ⟨(p, content) :: fs.files.filter (fun f => decide (f.1 ≠ p)), fs.writable⟩

/-- Model of shutil.copy2: read the source verbatim and write it to the
destination; raises (error) when the source is missing or the destination
cannot be written, in which case nothing is written. -/
def copy2 (fs : Fs) (src dst : PyStr) : Except Unit Fs :=
  match readFile fs src with
  | none => Except.error ()
  | some content =>
      if dst ∈ fs.writable then Except.ok (writeFile fs dst content)
      else Except.error ()

/-- Model of DuplicateFinder.create_backup: shutil.copy2 wrapped in a
try-except returning a success flag; on failure the file system is left as
it was. -/
def create_backup (kpFilename : PyStr) (fs : Fs) (backupPath : PyStr) : Fs × Bool :=
  match copy2 fs kpFilename backupPath with
  | Except.ok fs' => (fs', true)
  | Except.error _ => (fs, false)

/-! ## Trailing-slash lemmas -/

/-- Remove trailing slashes one at a time: the specification-side
description of what the path normalization step does to trailing
slashes. -/
def dropTrailingSlashes (p : PyStr) : PyStr :=
  if _hlast : p.getLast? = some 47 then dropTrailingSlashes p.dropLast else p
termination_by p.length
decreasing_by
  cases p with
  | nil => simp at _hlast
  | cons a l => simp

theorem dropTrailingSlashes_nil : dropTrailingSlashes [] = [] := by
  rw [dropTrailingSlashes]
  simp

theorem head?_dropWhile_ne {pr : Nat → Bool} :
    ∀ (l : PyStr) (a : Nat), (l.dropWhile pr).head? = some a → pr a = false := by
  intro l
  induction l with
  | nil => intro a h; simp [List.dropWhile] at h
  | cons b t ih =>
      intro a h
      by_cases hb : pr b
      · rw [List.dropWhile_cons_of_pos hb] at h
        exact ih a h
      · rw [List.dropWhile_cons_of_neg hb] at h
        simp at h
        rw [← h]
        simpa using hb

theorem dropTrailingSlashes_eq_rstrip (p : PyStr) :
    dropTrailingSlashes p = (p.reverse.dropWhile (fun c => c == 47)).reverse := by
  induction p using List.reverseRecOn with
  | nil => simp [dropTrailingSlashes_nil]
  | append_singleton xs x ih =>
      rw [dropTrailingSlashes]
      by_cases hx : x = 47
      · subst hx
        have h1 : (xs ++ [47]).getLast? = some 47 := by simp
        rw [dif_pos h1]
        have h2 : (xs ++ [47]).dropLast = xs := by simp
        rw [h2, ih]
        have h3 : (xs ++ [47]).reverse = 47 :: xs.reverse := by simp
        rw [h3, List.dropWhile_cons_of_pos (by simp)]
      · have h1 : (xs ++ [x]).getLast? = some x := by simp
        rw [dif_neg (by rw [h1]; simpa using hx)]
        have h3 : (xs ++ [x]).reverse = x :: xs.reverse := by simp
        rw [h3, List.dropWhile_cons_of_neg (by simpa using hx)]
        simp

theorem normPath_eq_dropTrailingSlashes (p : PyStr) :
    normPath p = dropTrailingSlashes p := by
  by_cases hp : p = [47]
  · subst hp
    have h : dropTrailingSlashes [47] = dropTrailingSlashes ([] : PyStr) := by
      rw [dropTrailingSlashes]
      simp
    simp [normPath, h, dropTrailingSlashes_nil]
  · rw [normPath, if_neg hp, dropTrailingSlashes_eq_rstrip]

theorem dropTrailingSlashes_getLast? (p : PyStr) :
    (dropTrailingSlashes p).getLast? ≠ some 47 := by
  rw [dropTrailingSlashes_eq_rstrip]
  intro h
  rw [List.getLast?_reverse] at h
  have h2 := head?_dropWhile_ne _ _ h
  simp at h2

/-! ## Claim C8: concrete normalizations -/

/-- C8: normalize_url maps HTTPS://Example.COM/ to https://example.com,
maps the scheme-less example.com to https://example.com, and maps the
empty string, None and all-whitespace input to the empty string. -/
theorem c8_concrete_normalizations :
    normalize_url (pystr "HTTPS://Example.COM/") = pystr "https://example.com"
    ∧ normalize_url (pystr "example.com") = pystr "https://example.com"
    ∧ normalize_url (pystr "") = pystr ""
    ∧ normalize_url_opt none = pystr ""
    ∧ normalize_url (pystr "   ") = pystr "" := by
  refine ⟨by decide, by decide, by decide, by decide, by decide⟩

/-! ## Claim C4: trailing slash handling -/

/-- C4 counterexample: on https://example.com/a// the code strips BOTH
trailing slashes and returns https://example.com/a, while the claim
(strip exactly one, retain slashes beyond the first) requires
https://example.com/a/. -/
theorem c4_counterexample :
    normalize_url (pystr "https://example.com/a//") = pystr "https://example.com/a"
    ∧ normalize_url (pystr "https://example.com/a//") ≠ pystr "https://example.com/a/" := by
  refine ⟨by decide, by decide⟩

/-- C4 (amended): for every input whose parse succeeds with a scheme, the
result is the scheme, separator and www-stripped lowercased host followed
by the parsed path with ALL trailing slashes removed; no trailing slash is
ever retained, and the root path collapses to the empty path component. -/
theorem c4_strips_all_trailing_slashes
    (x : PyStr) (r : ParseResult)
    (h1 : ¬(x = [] ∨ pyStrip x = []))
    (h2 : urlparse (pyStrip (pyLower x)) = Except.ok r)
    (h3 : r.scheme ≠ []) :
    normalize_url x
      = r.scheme ++ schemeSep ++ stripWww (pyLower r.netloc) ++ dropTrailingSlashes r.path
    ∧ (∀ p : PyStr, (dropTrailingSlashes p).getLast? ≠ some 47)
    ∧ normPath (pystr "/") = [] := by
  refine ⟨?_, fun p => dropTrailingSlashes_getLast? p, by decide⟩
  rw [normalize_url, if_neg h1]
  simp only [h2, if_neg h3, rebuild, normPath_eq_dropTrailingSlashes]

/-- Concrete parse result used by the C4 witness. -/
def c4ParseEx : ParseResult :=
  ⟨pystr "https", pystr "example.com", pystr "/a//", [], [], []⟩

/-- C4 witness: the amended statement applied at a concrete input. -/
theorem c4_strips_all_trailing_slashes_witness :
    normalize_url (pystr "https://example.com/a//")
      = c4ParseEx.scheme ++ schemeSep ++ stripWww (pyLower c4ParseEx.netloc)
        ++ dropTrailingSlashes c4ParseEx.path
    ∧ (∀ p : PyStr, (dropTrailingSlashes p).getLast? ≠ some 47)
    ∧ normPath (pystr "/") = [] :=
  c4_strips_all_trailing_slashes (pystr "https://example.com/a//") c4ParseEx
    (by decide) (by decide) (by decide)

/-! ## Claim C7: behavior without a loaded store -/

/-- C7 counterexample: with no store loaded (a None handle),
find_duplicates raises (attribute access on None) instead of returning an
empty report: the call is not a no-op returning an empty result. -/
theorem c7_counterexample :
    find_duplicates none = Except.error ()
    ∧ ∀ rep : DuplicateReport, find_duplicates none ≠ Except.ok rep := by
  refine ⟨rfl, fun rep h => by simp [find_duplicates] at h⟩

/-- C7 (amended): whenever a store is loaded, find_duplicates raises no
exception and returns a (possibly empty) report; on an empty store the
report is empty. -/
theorem c7_loaded_store_total (es : List Entry) :
    (∃ rep, find_duplicates (some es) = Except.ok rep)
    ∧ find_duplicates (some []) = Except.ok (mkReport 0 []) :=
  ⟨⟨find_duplicates_entries es, rfl⟩, rfl⟩

/-! ## Claim C9: create_backup failure leaves the store untouched -/

/-- C9: when the destination cannot be written, create_backup returns
failure and the file system, in particular the backing file of the store,
is byte-identical before and after the call. -/
theorem c9_backup_failure_untouched
    (fs : Fs) (src dst : PyStr) (h : dst ∉ fs.writable) :
    (create_backup src fs dst).2 = false
    ∧ (create_backup src fs dst).1 = fs
    ∧ readFile (create_backup src fs dst).1 src = readFile fs src := by
  cases hr : readFile fs src with
  | none => simp [create_backup, copy2, hr]
  | some content => simp [create_backup, copy2, hr, h]

/-- Concrete file system used by the C9 witness. -/
def c9FsEx : Fs := ⟨[(pystr "db.kdbx", [1, 2, 3])], []⟩

/-- C9 witness: the theorem applied to an unwritable destination. -/
theorem c9_backup_failure_untouched_witness :
    (create_backup (pystr "db.kdbx") c9FsEx (pystr "b.kdbx")).2 = false
    ∧ (create_backup (pystr "db.kdbx") c9FsEx (pystr "b.kdbx")).1 = c9FsEx
    ∧ readFile (create_backup (pystr "db.kdbx") c9FsEx (pystr "b.kdbx")).1 (pystr "db.kdbx")
        = readFile c9FsEx (pystr "db.kdbx") :=
  c9_backup_failure_untouched c9FsEx (pystr "db.kdbx") (pystr "b.kdbx") (by decide)

/-! ## Grouping lemmas: the insertion-ordered dict model -/

/-- Generic commutation of filter and map. -/
theorem filter_map_general {α β} (f : α → β) (P : β → Bool) (L : List α) :
    (L.map f).filter P = (L.filter (fun a => P (f a))).map f := by
  induction L with
  | nil => rfl
  | cons a t ih => by_cases h : P (f a) <;> simp [h, ih]

/-- The bucket of a key in the grouping association list. -/
def getGroup (k : PyStr × PyStr) (l : List ((PyStr × PyStr) × List Entry)) : List Entry :=
  match l.find? (fun kl => decide (kl.1 = k)) with
  | some kl => kl.2
  | none => []

theorem getGroup_nil (k : PyStr × PyStr) : getGroup k [] = [] := rfl

theorem addToGroups_map_fst (k : PyStr × PyStr) (e : Entry) :
    ∀ acc, (addToGroups k e acc).map Prod.fst
      = if k ∈ acc.map Prod.fst then acc.map Prod.fst else acc.map Prod.fst ++ [k] := by
  intro acc
  induction acc with
  | nil => simp [addToGroups]
  | cons a t ih =>
      obtain ⟨k', es⟩ := a
      by_cases h : k' = k
      · subst h
        simp [addToGroups]
      · have hne : ¬k = k' := fun he => h he.symm
        simp only [addToGroups, if_neg h, List.map_cons, ih, List.mem_cons]
        by_cases hk : k ∈ t.map Prod.fst
        · simp [hk, hne]
        · simp [hk, hne]

theorem getGroup_cons (k' k₀ : PyStr × PyStr) (es : List Entry)
    (t : List ((PyStr × PyStr) × List Entry)) :
    getGroup k' ((k₀, es) :: t) = if k₀ = k' then es else getGroup k' t := by
  by_cases h : k₀ = k'
  · simp [getGroup, List.find?, h]
  · simp [getGroup, List.find?, h]

theorem addToGroups_getGroup (k : PyStr × PyStr) (e : Entry) :
    ∀ acc k', getGroup k' (addToGroups k e acc)
      = if k' = k then getGroup k acc ++ [e] else getGroup k' acc := by
  intro acc
  induction acc with
  | nil =>
      intro k'
      by_cases h : k' = k
      · subst h
        simp [addToGroups, getGroup_cons, getGroup_nil]
      · have h2 : ¬k = k' := fun he => h he.symm
        simp [addToGroups, getGroup_cons, getGroup_nil, h, h2]
  | cons a t ih =>
      intro k'
      obtain ⟨k₀, es⟩ := a
      by_cases h0 : k₀ = k
      · subst h0
        simp only [addToGroups, if_pos rfl, getGroup_cons]
        by_cases h : k₀ = k'
        · subst h
          simp [getGroup_cons]
        · have h2 : ¬k' = k₀ := fun he => h he.symm
          simp [getGroup_cons, h, h2]
      · simp only [addToGroups, if_neg h0, getGroup_cons, ih k']
        by_cases h : k₀ = k'
        · subst h
          simp [h0]
        · by_cases hk : k' = k
          · subst hk
            simp [getGroup_cons, h, h0]
          · simp [getGroup_cons, h, hk]

/-- The grouping loop starting from an arbitrary accumulator. -/
def groupFold (acc : List ((PyStr × PyStr) × List Entry)) (es : List Entry) :
    List ((PyStr × PyStr) × List Entry) :=
  es.foldl (fun a e => addToGroups (entryKey e) e a) acc

theorem groupByKey_eq_groupFold (es : List Entry) : groupByKey es = groupFold [] es := rfl

theorem groupFold_cons (acc : List ((PyStr × PyStr) × List Entry)) (e : Entry)
    (es : List Entry) :
    groupFold acc (e :: es) = groupFold (addToGroups (entryKey e) e acc) es := rfl

theorem groupFold_map_fst (es : List Entry) :
    ∀ acc, (groupFold acc es).map Prod.fst
      = acc.map Prod.fst
        ++ (keysInOrder es).filter (fun k => decide (k ∉ acc.map Prod.fst)) := by
  induction es with
  | nil => intro acc; simp [groupFold, keysInOrder]
  | cons e es ih =>
      intro acc
      rw [groupFold_cons, ih, addToGroups_map_fst]
      by_cases hk : entryKey e ∈ acc.map Prod.fst
      · rw [if_pos hk]
        simp only [keysInOrder, List.filter_cons, decide_eq_true_eq]
        rw [if_neg (by simp [hk])]
        rw [List.filter_filter]
        congr 1
        apply List.filter_congr
        intro x _
        by_cases hx : x ∈ acc.map Prod.fst
        · simp [hx]
        · have : x ≠ entryKey e := fun he => hx (he ▸ hk)
          simp [hx, this]
      · rw [if_neg hk]
        simp only [keysInOrder, List.filter_cons, decide_eq_true_eq]
        rw [if_pos (by simp [hk])]
        rw [List.filter_filter, List.append_assoc, List.singleton_append]
        congr 2
        apply List.filter_congr
        intro x _
        by_cases hx : x ∈ acc.map Prod.fst
        · simp [hx]
        · by_cases he : x = entryKey e
          · subst he
            simp [hx]
          · simp [hx, he]

theorem groupFold_getGroup (es : List Entry) :
    ∀ acc k, getGroup k (groupFold acc es)
      = getGroup k acc ++ es.filter (fun e => decide (entryKey e = k)) := by
  induction es with
  | nil => intro acc k; simp [groupFold]
  | cons e es ih =>
      intro acc k
      rw [groupFold_cons, ih, addToGroups_getGroup]
      by_cases hk : k = entryKey e
      · rw [if_pos hk]
        subst hk
        simp [List.filter_cons]
      · rw [if_neg hk]
        have : ¬entryKey e = k := fun he => hk he.symm
        simp [List.filter_cons, this]

theorem keysInOrder_nodup (es : List Entry) : (keysInOrder es).Nodup := by
  induction es with
  | nil => simp [keysInOrder]
  | cons e es ih =>
      simp only [keysInOrder, List.nodup_cons]
      constructor
      · intro hmem
        have := List.of_mem_filter hmem
        simp at this
      · exact ih.filter _

theorem groupByKey_map_fst (es : List Entry) :
    (groupByKey es).map Prod.fst = keysInOrder es := by
  rw [groupByKey_eq_groupFold, groupFold_map_fst]
  simp

theorem groupByKey_nodup_keys (es : List Entry) :
    ((groupByKey es).map Prod.fst).Nodup := by
  rw [groupByKey_map_fst]
  exact keysInOrder_nodup es

theorem groupByKey_getGroup (es : List Entry) (k : PyStr × PyStr) :
    getGroup k (groupByKey es) = es.filter (fun e => decide (entryKey e = k)) := by
  rw [groupByKey_eq_groupFold, groupFold_getGroup]
  simp [getGroup_nil]

theorem getGroup_of_mem :
    ∀ {L : List ((PyStr × PyStr) × List Entry)}, (L.map Prod.fst).Nodup →
      ∀ {k l}, (k, l) ∈ L → getGroup k L = l := by
  intro L
  induction L with
  | nil => intro _ k l hm; simp at hm
  | cons a t ih =>
      intro hnd k l hm
      obtain ⟨k₀, l₀⟩ := a
      simp only [List.map_cons, List.nodup_cons] at hnd
      rcases List.mem_cons.mp hm with heq | hmt
      · injection heq with h1 h2
        subst h1; subst h2
        simp [getGroup, List.find?]
      · by_cases hk : k₀ = k
        · subst hk
          exfalso
          exact hnd.1 (by simpa using List.mem_map_of_mem Prod.fst hmt)
        · have hh := ih hnd.2 hmt
          simpa [getGroup, List.find?, hk] using hh

theorem mem_groupByKey_eq_filter {es : List Entry} {k : PyStr × PyStr} {l : List Entry}
    (hm : (k, l) ∈ groupByKey es) :
    l = es.filter (fun e => decide (entryKey e = k)) := by
  rw [← groupByKey_getGroup]
  exact (getGroup_of_mem (groupByKey_nodup_keys es) hm).symm

theorem mem_keysInOrder {es : List Entry} {k : PyStr × PyStr} :
    k ∈ keysInOrder es ↔ k ∈ es.map entryKey := by
  induction es with
  | nil => simp [keysInOrder]
  | cons e es ih =>
      simp only [keysInOrder, List.map_cons, List.mem_cons]
      constructor
      · intro h
        rcases h with h | h
        · exact Or.inl h
        · exact Or.inr (ih.mp (List.mem_of_mem_filter h))
      · intro h
        rcases h with h | h
        · exact Or.inl h
        · by_cases hk : k = entryKey e
          · exact Or.inl hk
          · exact Or.inr (List.mem_filter.mpr ⟨ih.mpr h, by simpa using hk⟩)

/-! ## Stable sort lemmas -/

theorem decide_and_eq (p q : Prop) [Decidable p] [Decidable q] :
    (decide p && decide q) = decide (p ∧ q) := by
  by_cases hp : p <;> by_cases hq : q <;> simp [hp, hq]

theorem insertBySize_perm (g : DuplicateGroup) (l : List DuplicateGroup) :
    (insertBySize g l).Perm (g :: l) := by
  induction l with
  | nil => simp [insertBySize]
  | cons hd t ih =>
      by_cases hc : g.entries.length < hd.entries.length
      · rw [insertBySize, if_pos hc]
        exact (ih.cons hd).trans (List.Perm.swap g hd t)
      · rw [insertBySize, if_neg hc]

theorem sortBySizeDesc_perm (l : List DuplicateGroup) : (sortBySizeDesc l).Perm l := by
  induction l with
  | nil => simp [sortBySizeDesc]
  | cons g gs ih =>
      rw [sortBySizeDesc]
      exact (insertBySize_perm g _).trans (ih.cons g)

theorem mem_insertBySize {g x : DuplicateGroup} {l : List DuplicateGroup}
    (hx : x ∈ insertBySize g l) : x = g ∨ x ∈ l := by
  have := (insertBySize_perm g l).mem_iff.mp hx
  simpa using this

theorem insertBySize_pairwise {g : DuplicateGroup} {l : List DuplicateGroup}
    (hl : List.Pairwise (fun a b => b.entries.length ≤ a.entries.length) l) :
    List.Pairwise (fun a b => b.entries.length ≤ a.entries.length) (insertBySize g l) := by
  induction l with
  | nil => simp [insertBySize]
  | cons hd t ih =>
      rcases List.pairwise_cons.mp hl with ⟨hh, ht⟩
      by_cases hc : g.entries.length < hd.entries.length
      · rw [insertBySize, if_pos hc]
        refine List.pairwise_cons.mpr ⟨?_, ih ht⟩
        intro x hx
        rcases mem_insertBySize hx with rfl | hx
        · exact Nat.le_of_lt hc
        · exact hh x hx
      · rw [insertBySize, if_neg hc]
        refine List.pairwise_cons.mpr ⟨?_, hl⟩
        intro x hx
        rcases List.mem_cons.mp hx with rfl | hx
        · exact Nat.le_of_not_lt hc
        · exact Nat.le_trans (hh x hx) (Nat.le_of_not_lt hc)

theorem sortBySizeDesc_sorted (l : List DuplicateGroup) :
    List.Pairwise (fun a b => b.entries.length ≤ a.entries.length) (sortBySizeDesc l) := by
  induction l with
  | nil => simp [sortBySizeDesc]
  | cons g gs ih =>
      rw [sortBySizeDesc]
      exact insertBySize_pairwise ih

theorem filter_insertBySize (g : DuplicateGroup) (l : List DuplicateGroup) (n : Nat) :
    (insertBySize g l).filter (fun x => decide (x.entries.length = n))
      = if g.entries.length = n
        then g :: l.filter (fun x => decide (x.entries.length = n))
        else l.filter (fun x => decide (x.entries.length = n)) := by
  induction l with
  | nil => by_cases hg : g.entries.length = n <;> simp [insertBySize, hg]
  | cons hd t ih =>
      by_cases hc : g.entries.length < hd.entries.length
      · rw [insertBySize, if_pos hc, List.filter_cons, ih]
        by_cases hg : g.entries.length = n
        · have hh : ¬(hd.entries.length = n) := by omega
          simp [hg, hh, List.filter_cons]
        · simp [hg, List.filter_cons]
      · rw [insertBySize, if_neg hc]
        by_cases hg : g.entries.length = n
        · simp [hg, List.filter_cons]
        · simp [hg, List.filter_cons]

theorem filter_sortBySizeDesc (l : List DuplicateGroup) (n : Nat) :
    (sortBySizeDesc l).filter (fun x => decide (x.entries.length = n))
      = l.filter (fun x => decide (x.entries.length = n)) := by
  induction l with
  | nil => simp [sortBySizeDesc]
  | cons g gs ih =>
      rw [sortBySizeDesc, filter_insertBySize]
      by_cases hg : g.entries.length = n
      · simp [hg, List.filter_cons, ih]
      · simp [hg, List.filter_cons, ih]

/-! ## Report characterization lemmas -/

theorem duplicate_groups_eq (es : List Entry) :
    (find_duplicates_entries es).duplicate_groups = sortBySizeDesc (dupGroupsOf es) := rfl

theorem dupGroupsOf_filter_map_key (es : List Entry) (n : Nat) :
    ((dupGroupsOf es).filter (fun g => decide (g.entries.length = n))).map
        (fun g => (g.url, g.username))
      = (keysInOrder es).filter
          (fun k => decide
            ((es.filter (fun e => decide (entryKey e = k))).length = n ∧ 2 ≤ n)) := by
  rw [dupGroupsOf, filter_map_general, List.map_map, List.filter_filter]
  rw [show ((fun g : DuplicateGroup => (g.url, g.username))
      ∘ fun kl : (PyStr × PyStr) × List Entry => mkGroup kl.1.1 kl.1.2 kl.2)
      = (Prod.fst : (PyStr × PyStr) × List Entry → PyStr × PyStr) from
    funext fun kl => rfl]
  have hcongr :
      ((groupByKey es).filter
        (fun kl => decide ((mkGroup kl.1.1 kl.1.2 kl.2).entries.length = n)
          && decide (1 < kl.2.length)))
      = (groupByKey es).filter
          (fun kl => decide
            ((es.filter (fun e => decide (entryKey e = kl.1))).length = n ∧ 2 ≤ n)) := by
    apply List.filter_congr
    intro kl hkl
    have hbucket : kl.2 = es.filter (fun e => decide (entryKey e = kl.1)) :=
      mem_groupByKey_eq_filter (by simpa using hkl)
    show (decide (kl.2.length = n) && decide (1 < kl.2.length)) = _
    rw [← hbucket, decide_and_eq, decide_eq_decide]
    omega
  rw [hcongr, ← filter_map_general Prod.fst
    (fun k => decide ((es.filter (fun e => decide (entryKey e = k))).length = n ∧ 2 ≤ n)),
    groupByKey_map_fst]

theorem dupGroupsOf_map_key (es : List Entry) :
    (dupGroupsOf es).map (fun g => (g.url, g.username))
      = (keysInOrder es).filter
          (fun k => decide (2 ≤ (es.filter (fun e => decide (entryKey e = k))).length)) := by
  rw [dupGroupsOf, List.map_map]
  rw [show ((fun g : DuplicateGroup => (g.url, g.username))
      ∘ fun kl : (PyStr × PyStr) × List Entry => mkGroup kl.1.1 kl.1.2 kl.2)
      = (Prod.fst : (PyStr × PyStr) × List Entry → PyStr × PyStr) from
    funext fun kl => rfl]
  have hcongr :
      ((groupByKey es).filter (fun kl => decide (1 < kl.2.length)))
      = (groupByKey es).filter
          (fun kl => decide
            (2 ≤ (es.filter (fun e => decide (entryKey e = kl.1))).length)) := by
    apply List.filter_congr
    intro kl hkl
    have hbucket : kl.2 = es.filter (fun e => decide (entryKey e = kl.1)) :=
      mem_groupByKey_eq_filter (by simpa using hkl)
    rw [← hbucket, decide_eq_decide]
    omega
  rw [hcongr, ← filter_map_general Prod.fst
    (fun k => decide (2 ≤ (es.filter (fun e => decide (entryKey e = k))).length)),
    groupByKey_map_fst]

/-! ## Claim C1: report ordering and aggregate counts -/

/-- C1: the duplicate groups of a report are sorted descending by size
with a stable tie-break that preserves the first-seen key-discovery order
(groups of each fixed size appear in exactly the discovery order of their
keys); total_duplicates is the sum of the group sizes and
redundant_entries is total_duplicates minus the number of groups. -/
theorem c1_report_structure (es : List Entry) :
    List.Pairwise (fun a b => b.entries.length ≤ a.entries.length)
      (find_duplicates_entries es).duplicate_groups
    ∧ (∀ n : Nat,
        (((find_duplicates_entries es).duplicate_groups.filter
            (fun g => decide (g.entries.length = n))).map (fun g => (g.url, g.username)))
          = (keysInOrder es).filter
              (fun k => decide
                ((es.filter (fun e => decide (entryKey e = k))).length = n ∧ 2 ≤ n)))
    ∧ (find_duplicates_entries es).total_duplicates
        = ((find_duplicates_entries es).duplicate_groups.map
            (fun g => g.entries.length)).sum
    ∧ (find_duplicates_entries es).redundant_entries
        = ((find_duplicates_entries es).total_duplicates : Int)
          - (find_duplicates_entries es).duplicate_groups.length := by
  refine ⟨?_, ?_, rfl, ?_⟩
  · rw [duplicate_groups_eq]
    exact sortBySizeDesc_sorted _
  · intro n
    rw [duplicate_groups_eq, filter_sortBySizeDesc, dupGroupsOf_filter_map_key]
  · rfl

/-! ## Claim C6: groups partition the non-unique records -/

/-- C6: in every report, each group has at least two entries, each entry
of a group has exactly the group key, the groups carry pairwise distinct
keys, no record belongs to two groups, a group holds its entries in store
enumeration order (it equals the filter of the scanned list by its key),
and every record whose key occurs at least twice lies in some group. -/
theorem c6_groups_partition (es : List Entry) :
    (∀ g ∈ (find_duplicates_entries es).duplicate_groups, 2 ≤ g.entries.length)
    ∧ (∀ g ∈ (find_duplicates_entries es).duplicate_groups,
        g.entries = es.filter (fun e => decide (entryKey e = (g.url, g.username))))
    ∧ ((find_duplicates_entries es).duplicate_groups.map
        (fun g => (g.url, g.username))).Nodup
    ∧ (∀ g1 ∈ (find_duplicates_entries es).duplicate_groups,
        ∀ g2 ∈ (find_duplicates_entries es).duplicate_groups,
          g1 ≠ g2 → ∀ e ∈ g1.entries, e ∉ g2.entries)
    ∧ (∀ e ∈ es,
        2 ≤ (es.filter (fun x => decide (entryKey x = entryKey e))).length →
          ∃ g ∈ (find_duplicates_entries es).duplicate_groups, e ∈ g.entries) := by
  have hmem : ∀ g, g ∈ (find_duplicates_entries es).duplicate_groups ↔ g ∈ dupGroupsOf es := by
    intro g
    rw [duplicate_groups_eq]
    exact (sortBySizeDesc_perm _).mem_iff
  have hshape : ∀ g ∈ dupGroupsOf es,
      ∃ kl, kl ∈ groupByKey es ∧ 1 < kl.2.length ∧ g = mkGroup kl.1.1 kl.1.2 kl.2 := by
    intro g hg
    rw [dupGroupsOf, List.mem_map] at hg
    obtain ⟨kl, hkl, rfl⟩ := hg
    rw [List.mem_filter] at hkl
    exact ⟨kl, hkl.1, by simpa using hkl.2, rfl⟩
  have hentries : ∀ g ∈ (find_duplicates_entries es).duplicate_groups,
      g.entries = es.filter (fun e => decide (entryKey e = (g.url, g.username))) := by
    intro g hg
    obtain ⟨kl, hkl, _, rfl⟩ := hshape g ((hmem g).mp hg)
    have hbucket : kl.2 = es.filter (fun e => decide (entryKey e = kl.1)) :=
      mem_groupByKey_eq_filter (by simpa using hkl)
    exact hbucket
  have hnodup : ((find_duplicates_entries es).duplicate_groups.map
      (fun g => (g.url, g.username))).Nodup := by
    have hperm : ((find_duplicates_entries es).duplicate_groups.map
        (fun g => (g.url, g.username))).Perm
        ((dupGroupsOf es).map (fun g => (g.url, g.username))) := by
      rw [duplicate_groups_eq]
      exact (sortBySizeDesc_perm _).map _
    rw [hperm.nodup_iff, dupGroupsOf_map_key]
    exact (keysInOrder_nodup es).filter _
  refine ⟨?_, hentries, hnodup, ?_, ?_⟩
  · intro g hg
    obtain ⟨kl, _, hlen, rfl⟩ := hshape g ((hmem g).mp hg)
    simpa [mkGroup] using hlen
  · intro g1 h1 g2 h2 hne e he1 he2
    have hk1 : entryKey e = (g1.url, g1.username) := by
      have := hentries g1 h1 ▸ he1
      simpa using (List.mem_filter.mp this).2
    have hk2 : entryKey e = (g2.url, g2.username) := by
      have := hentries g2 h2 ▸ he2
      simpa using (List.mem_filter.mp this).2
    have heqk : (fun g : DuplicateGroup => (g.url, g.username)) g1
        = (fun g : DuplicateGroup => (g.url, g.username)) g2 := by
      simp only
      rw [← hk1, ← hk2]
    exact hne (List.inj_on_of_nodup_map hnodup h1 h2 heqk)
  · intro e he hlen
    have hk : entryKey e ∈ keysInOrder es :=
      mem_keysInOrder.mpr (List.mem_map_of_mem entryKey he)
    rw [← groupByKey_map_fst, List.mem_map] at hk
    obtain ⟨kl, hklmem, hfst⟩ := hk
    have hbucket : kl.2 = es.filter (fun x => decide (entryKey x = kl.1)) :=
      mem_groupByKey_eq_filter (by simpa using hklmem)
    have hklen : 1 < kl.2.length := by
      rw [hbucket, hfst]
      omega
    refine ⟨mkGroup kl.1.1 kl.1.2 kl.2, ?_, ?_⟩
    · rw [hmem, dupGroupsOf, List.mem_map]
      exact ⟨kl, List.mem_filter.mpr ⟨hklmem, by simpa using hklen⟩, rfl⟩
    · show e ∈ kl.2
      rw [hbucket]
      exact List.mem_filter.mpr ⟨he, by simp [hfst]⟩

/-! ## Optimizer session lemmas -/

theorem promptLoop_num (n : Nat) (k : Int) (rest : List RawChoice)
    (h : 1 ≤ k ∧ k ≤ (n : Int)) :
    promptLoop n (RawChoice.num k :: rest) = some (GroupOutcome.keepChosen k.toNat, rest) := by
  simp [promptLoop, h]

theorem optimize_decline (groups : List DuplicateGroup) (dryRun backupOk : Bool)
    (inputs : List RawChoice) (dok : Entry → Bool) :
    (optimize groups dryRun backupOk inputs false dok).deletedEntries = [] := by
  unfold optimize
  by_cases hg : groups = []
  · simp [hg, OptimizeResult.deletedEntries]
  · cases hr : reviewGroups groups inputs [] [] with
    | none =>
        cases dryRun <;> cases backupOk <;>
          simp [hg, hr, OptimizeResult.deletedEntries]
    | some o =>
        cases o with
        | none =>
            cases dryRun <;> cases backupOk <;>
              simp [hg, hr, OptimizeResult.deletedEntries]
        | some ma =>
            obtain ⟨marks, audit⟩ := ma
            by_cases hm : marks = [] <;>
              cases dryRun <;> cases backupOk <;>
                simp [hg, hr, hm, OptimizeResult.deletedEntries]

theorem optimize_of_quit (groups : List DuplicateGroup) (dryRun backupOk : Bool)
    (inputs : List RawChoice) (confirm : Bool) (dok : Entry → Bool)
    (h : reviewGroups groups inputs [] [] = some none) :
    (optimize groups dryRun backupOk inputs confirm dok).deletedEntries = []
    ∧ (optimize groups dryRun backupOk inputs confirm dok).auditSaved = false := by
  unfold optimize
  by_cases hg : groups = []
  · subst hg
    simp [reviewGroups] at h
  · cases dryRun <;> cases backupOk <;>
      simp [hg, h, OptimizeResult.deletedEntries, OptimizeResult.auditSaved]

/-- The C2 property bundle: keeping entry k marks exactly the other
entries of the group (the list with index k-1 removed, that is the prefix
before it and the suffix after it, of length n-1); quitting at any group
ends the session immediately; a session that was quit applies zero
deletions and saves no audit log, whatever was decided before the quit;
and a declined final confirmation applies zero deletions. -/
def C2Statement (g : DuplicateGroup) (gs : List DuplicateGroup) (k : Nat)
    (marks : List Entry) (audit : List AuditLine) (inputs : List RawChoice) : Prop :=
  (reviewGroups (g :: gs) (RawChoice.num (k : Int) :: inputs) marks audit
      = reviewGroups gs inputs (marks ++ g.entries.eraseIdx (k - 1))
          (audit ++ [AuditLine.keptLine ((g.entries.getD (k - 1) anyEntry).title)
            (g.entries.length - 1) g.url g.username]))
  ∧ (g.entries.eraseIdx (k - 1)).length = g.entries.length - 1
  ∧ g.entries.eraseIdx (k - 1) = g.entries.take (k - 1) ++ g.entries.drop k
  ∧ (∀ (g2 : DuplicateGroup) (gs2 : List DuplicateGroup) (marks2 : List Entry)
        (audit2 : List AuditLine) (inputs2 : List RawChoice),
      reviewGroups (g2 :: gs2) (RawChoice.q :: inputs2) marks2 audit2 = some none)
  ∧ (∀ (groups : List DuplicateGroup) (dryRun backupOk : Bool)
        (inputs1 : List RawChoice) (confirm : Bool) (dok : Entry → Bool),
      reviewGroups groups inputs1 [] [] = some none →
        (optimize groups dryRun backupOk inputs1 confirm dok).deletedEntries = []
        ∧ (optimize groups dryRun backupOk inputs1 confirm dok).auditSaved = false)
  ∧ (∀ (groups : List DuplicateGroup) (dryRun backupOk : Bool)
        (inputs1 : List RawChoice) (dok : Entry → Bool),
      (optimize groups dryRun backupOk inputs1 false dok).deletedEntries = [])

/-! ## Claim C2: survivor marking, quit and declined confirmation -/

/-- C2: choosing survivor k (1 le k le n) in a group of n entries marks
exactly the other n-1 entries of that group for deletion; choosing quit at
any group ends the session with zero deletions applied regardless of prior
decisions; and declining the final confirmation ends the session with zero
deletions applied. -/
theorem c2_optimizer_session (g : DuplicateGroup) (gs : List DuplicateGroup) (k : Nat)
    (marks : List Entry) (audit : List AuditLine) (inputs : List RawChoice)
    (h1 : 1 ≤ k) (h2 : k ≤ g.entries.length) :
    C2Statement g gs k marks audit inputs := by
  refine ⟨?_, ?_, ?_, ?_, ?_, ?_⟩
  · simp only [reviewGroups]
    rw [promptLoop_num _ _ _ ⟨by exact_mod_cast h1, by exact_mod_cast h2⟩]
    simp
  · rw [List.eraseIdx_eq_take_drop_succ, List.length_append, List.length_take,
      List.length_drop]
    omega
  · rw [List.eraseIdx_eq_take_drop_succ]
    have hk : k - 1 + 1 = k := by omega
    rw [hk]
  · intro g2 gs2 marks2 audit2 inputs2
    simp [reviewGroups, promptLoop]
  · intro groups dryRun backupOk inputs1 confirm dok h
    exact optimize_of_quit groups dryRun backupOk inputs1 confirm dok h
  · intro groups dryRun backupOk inputs1 dok
    exact optimize_decline groups dryRun backupOk inputs1 dok

/-- Entry used by concrete optimizer sessions. -/
def entryEx (i : Nat) : Entry :=
  ⟨[i], some (pystr "u"), [112, i], some (pystr "https://a.com")⟩

/-- A concrete group of three entries. -/
def c2GroupEx : DuplicateGroup :=
  mkGroup (pystr "https://a.com") (pystr "u") [entryEx 1, entryEx 2, entryEx 3]

/-- C2 witness: the session properties at a concrete group of size 3 with
survivor 2. -/
theorem c2_optimizer_session_witness : C2Statement c2GroupEx [] 2 [] [] [] :=
  c2_optimizer_session c2GroupEx [] 2 [] [] [] (by decide) (by decide)

/-! ## Claim C5: audit log persistence -/

theorem reviewGroups_growth :
    ∀ (gs : List DuplicateGroup) (inputs : List RawChoice) (m0 : List Entry)
      (a0 : List AuditLine) (m : List Entry) (a : List AuditLine),
      reviewGroups gs inputs m0 a0 = some (some (m, a)) →
      a0.length ≤ a.length ∧ (m0.length < m.length → a0.length < a.length) := by
  intro gs
  induction gs with
  | nil =>
      intro inputs m0 a0 m a h
      simp only [reviewGroups, Option.some.injEq, Prod.mk.injEq] at h
      obtain ⟨h1, h2⟩ := h
      subst h1; subst h2
      exact ⟨Nat.le_refl _, by omega⟩
  | cons g gs ih =>
      intro inputs m0 a0 m a h
      simp only [reviewGroups] at h
      cases hp : promptLoop g.entries.length inputs with
      | none => rw [hp] at h; simp at h
      | some oc =>
          obtain ⟨outcome, rest⟩ := oc
          rw [hp] at h
          cases outcome with
          | quitChosen => simp at h
          | skipChosen =>
              have := ih rest m0 (a0 ++ [AuditLine.skippedLine g.url g.username]) m a h
              rcases this with ⟨hle, himp⟩
              simp only [List.length_append, List.length_singleton] at hle himp
              exact ⟨by omega, fun hlt => by omega⟩
          | keepChosen k =>
              have := ih rest (m0 ++ g.entries.eraseIdx (k - 1))
                (a0 ++ [AuditLine.keptLine ((g.entries.getD (k - 1) anyEntry).title)
                  (g.entries.length - 1) g.url g.username]) m a h
              rcases this with ⟨hle, _⟩
              simp only [List.length_append, List.length_singleton] at hle
              exact ⟨by omega, fun _ => by omega⟩

/-- C5 counterexample: a completed session in which the only decision was
a skip (so one audit line was logged), run without dry-run: the code
returns before the audit-write step, so no audit log is persisted, while
the claim requires persistence whenever any decision was logged. -/
def c5GroupEx : DuplicateGroup :=
  mkGroup (pystr "https://a.com") (pystr "u") [entryEx 1, entryEx 2]

theorem c5_counterexample :
    reviewGroups [c5GroupEx] [RawChoice.s] [] []
      = some (some ([], [AuditLine.skippedLine c5GroupEx.url c5GroupEx.username]))
    ∧ (optimize [c5GroupEx] false true [RawChoice.s] true (fun _ => true)).auditSaved = false
    ∧ (optimize [c5GroupEx] false true [RawChoice.s] true (fun _ => true))
        = OptimizeResult.nothingMarked := by
  refine ⟨by decide, by decide, by decide⟩

/-- C5 (amended): the audit log is persisted exactly when the session
completes with a nonempty deletion set, the run is not in dry-run mode and
the final confirmation is given; in that case it is persisted even when
zero deletions are executed (every delete fails).  A completed session
whose deletion set is empty returns before the audit-write step, so its
logged skip decisions are not persisted. -/
theorem c5_audit_persistence (groups : List DuplicateGroup) (inputs : List RawChoice)
    (dok : Entry → Bool) (marks : List Entry) (audit : List AuditLine)
    (h : reviewGroups groups inputs [] [] = some (some (marks, audit)))
    (hm : marks ≠ []) :
    (optimize groups false true inputs true dok).auditSaved = true
    ∧ (optimize groups false true inputs true (fun _ => false)).deletedEntries = []
    ∧ (optimize groups false true inputs true (fun _ => false)).auditSaved = true := by
  have hg : groups ≠ [] := by
    intro hge
    subst hge
    simp only [reviewGroups, Option.some.injEq, Prod.mk.injEq] at h
    exact hm h.1.symm
  have haudit : audit ≠ [] := by
    have hgrow := reviewGroups_growth groups inputs [] [] marks audit h
    intro hae
    subst hae
    have hml : 0 < marks.length := List.length_pos.mpr hm
    have := hgrow.2 (by simpa using hml)
    simp at this
  cases audit with
  | nil => exact absurd rfl haudit
  | cons a0 as =>
      refine ⟨?_, ?_, ?_⟩
      · unfold optimize
        simp [hg, h, hm, OptimizeResult.auditSaved]
      · unfold optimize
        simp [hg, h, hm, OptimizeResult.deletedEntries]
      · unfold optimize
        simp [hg, h, hm, OptimizeResult.auditSaved]

/-- C5 witness: a concrete completed keep-decision session, with a delete
function that always fails, still saves the audit log. -/
theorem c5_audit_persistence_witness :
    (optimize [c5GroupEx] false true [RawChoice.num 1] true (fun _ => true)).auditSaved = true
    ∧ (optimize [c5GroupEx] false true [RawChoice.num 1] true
        (fun _ => false)).deletedEntries = []
    ∧ (optimize [c5GroupEx] false true [RawChoice.num 1] true
        (fun _ => false)).auditSaved = true :=
  c5_audit_persistence [c5GroupEx] [RawChoice.num 1] (fun _ => true)
    (List.eraseIdx [entryEx 1, entryEx 2] 0)
    [AuditLine.keptLine (entryEx 1).title 1 c5GroupEx.url c5GroupEx.username]
    (by decide) (by decide)

/-! ## Claim C10: recycle-bin deletion with per-entry persistence -/

/-- Trash a list of entry identities in order. -/
def trashFold (db : KpDb) (l : List Nat) : KpDb := l.foldl trash_entry db

theorem trashFold_nil (db : KpDb) : trashFold db [] = db := rfl

theorem trashFold_cons (db : KpDb) (i : Nat) (l : List Nat) :
    trashFold db (i :: l) = trashFold (trash_entry db i) l := rfl

theorem deletionStep_pos {ok : Nat → Bool} {eid : Nat} (hok : ok eid = true)
    (db : KpDb) (s0 : Option KpDb) (c : Nat) :
    deletionStep ok (⟨some db, s0⟩, c) eid
      = (⟨some (trash_entry db eid), some (trash_entry db eid)⟩, c + 1) := by
  simp [deletionStep, delete_entry, hok]

theorem deletionStep_neg {ok : Nat → Bool} {eid : Nat} (hok : ok eid = false)
    (db : KpDb) (s0 : Option KpDb) (c : Nat) :
    deletionStep ok (⟨some db, s0⟩, c) eid = (⟨some db, s0⟩, c) := by
  simp [deletionStep, delete_entry, hok]

theorem applyDeletions_loop (ok : Nat → Bool) :
    ∀ (eids : List Nat) (db : KpDb) (s0 : Option KpDb) (c : Nat),
      eids.foldl (deletionStep ok) (⟨some db, s0⟩, c)
        = (⟨some (trashFold db (eids.filter ok)),
            if eids.filter ok = [] then s0 else some (trashFold db (eids.filter ok))⟩,
           c + (eids.filter ok).length) := by
  intro eids
  induction eids with
  | nil => intro db s0 c; simp [trashFold_nil]
  | cons eid eids ih =>
      intro db s0 c
      rw [List.foldl_cons]
      by_cases hok : ok eid
      · rw [deletionStep_pos hok, ih, List.filter_cons_of_pos (by simpa using hok),
          trashFold_cons]
        by_cases hrest : eids.filter ok = []
        · simp [hrest, trashFold_nil]
        · simp [hrest]
          omega
      · rw [deletionStep_neg (by simpa using hok), ih,
          List.filter_cons_of_neg (by simpa using hok)]

theorem applyDeletions_eq (ok : Nat → Bool) (eids : List Nat) (db : KpDb)
    (s0 : Option KpDb) :
    applyDeletions ok ⟨some db, s0⟩ eids
      = (⟨some (trashFold db (eids.filter ok)),
          if eids.filter ok = [] then s0 else some (trashFold db (eids.filter ok))⟩,
         (eids.filter ok).length) := by
  rw [applyDeletions, applyDeletions_loop]
  simp

theorem trashFold_ids (l : List Nat) :
    ∀ db : KpDb, (trashFold db l).entries.map (fun e => e.eid)
      = db.entries.map (fun e => e.eid) := by
  induction l with
  | nil => intro db; rfl
  | cons i t ih =>
      intro db
      rw [trashFold_cons, ih]
      simp only [trash_entry, List.map_map]
      apply List.map_congr_left
      intro e _
      by_cases h : e.eid = i <;> simp [h]

theorem trash_entry_sets (db : KpDb) (i : Nat) :
    ∀ e ∈ (trash_entry db i).entries, e.eid = i → e.group = recycleBinName := by
  intro e he heq
  simp only [trash_entry, List.mem_map] at he
  obtain ⟨x, _, hxe⟩ := he
  by_cases h : x.eid = i
  · rw [if_pos h] at hxe
    rw [← hxe]
  · rw [if_neg h] at hxe
    exact absurd (hxe ▸ heq) h

theorem trash_entry_preserves (db : KpDb) (j i : Nat)
    (hp : ∀ e ∈ db.entries, e.eid = i → e.group = recycleBinName) :
    ∀ e ∈ (trash_entry db j).entries, e.eid = i → e.group = recycleBinName := by
  intro e he heq
  simp only [trash_entry, List.mem_map] at he
  obtain ⟨x, hx, hxe⟩ := he
  by_cases h : x.eid = j
  · rw [if_pos h] at hxe
    rw [← hxe]
  · rw [if_neg h] at hxe
    subst hxe
    exact hp x hx heq

theorem trashFold_preserves (l : List Nat) :
    ∀ (db : KpDb) (i : Nat),
      (∀ e ∈ db.entries, e.eid = i → e.group = recycleBinName) →
      ∀ e ∈ (trashFold db l).entries, e.eid = i → e.group = recycleBinName := by
  induction l with
  | nil => intro db i hp; exact hp
  | cons j t ih =>
      intro db i hp
      rw [trashFold_cons]
      exact ih (trash_entry db j) i (trash_entry_preserves db j i hp)

theorem trashFold_group_of_mem (l : List Nat) :
    ∀ (db : KpDb) (eid : Nat), eid ∈ l →
      ∀ e ∈ (trashFold db l).entries, e.eid = eid → e.group = recycleBinName := by
  induction l with
  | nil => intro db eid h; simp at h
  | cons i t ih =>
      intro db eid h
      rw [trashFold_cons]
      rcases List.mem_cons.mp h with rfl | ht
      · exact trashFold_preserves t (trash_entry db eid) eid (trash_entry_sets db eid)
      · exact ih (trash_entry db i) eid ht

/-- C10: applying a confirmed deletion set deletes each marked entry with
the default mode of delete_entry, which moves it to the recycle-bin group
instead of removing it (entry identities are preserved in the live store),
counts exactly the successful deletions, and saves the store after each
individual deletion, so every successful deletion is reflected in the
persisted snapshot regardless of later failures. -/
theorem c10_recycle_and_persistence (ok : Nat → Bool) (db : KpDb) (s0 : Option KpDb)
    (eids : List Nat) :
    ((applyDeletions ok ⟨some db, s0⟩ eids).1.kp
        = some (trashFold db (eids.filter ok)))
    ∧ ((applyDeletions ok ⟨some db, s0⟩ eids).2 = (eids.filter ok).length)
    ∧ (∀ dbf, (applyDeletions ok ⟨some db, s0⟩ eids).1.kp = some dbf →
        dbf.entries.map (fun e => e.eid) = db.entries.map (fun e => e.eid))
    ∧ (eids.filter ok ≠ [] →
        (applyDeletions ok ⟨some db, s0⟩ eids).1.saved
          = (applyDeletions ok ⟨some db, s0⟩ eids).1.kp)
    ∧ (∀ eid ∈ eids, ok eid = true →
        ∀ dbs, (applyDeletions ok ⟨some db, s0⟩ eids).1.saved = some dbs →
          ∀ e ∈ dbs.entries, e.eid = eid → e.group = recycleBinName) := by
  rw [applyDeletions_eq]
  refine ⟨rfl, rfl, ?_, ?_, ?_⟩
  · intro dbf hdbf
    injection hdbf with hdbf
    rw [← hdbf]
    exact trashFold_ids _ db
  · intro hne
    simp [hne]
  · intro eid hmem hok dbs hdbs
    have hfmem : eid ∈ eids.filter ok := List.mem_filter.mpr ⟨hmem, hok⟩
    have hne : eids.filter ok ≠ [] := fun he => by simp [he] at hfmem
    rw [if_neg hne] at hdbs
    injection hdbs with hdbs
    rw [← hdbs]
    exact trashFold_group_of_mem _ db eid hfmem

/-! ## Character-level lemmas for the normalization model -/

theorem pyLowerChar_idem (c : Nat) : pyLowerChar (pyLowerChar c) = pyLowerChar c := by
  by_cases h : 65 ≤ c ∧ c ≤ 90
  · simp only [pyLowerChar, if_pos h]
    rw [if_neg (by omega)]
  · simp only [pyLowerChar, if_neg h]

theorem pyLower_idem (s : PyStr) : pyLower (pyLower s) = pyLower s := by
  unfold pyLower
  rw [List.map_map]
  apply List.map_congr_left
  intro c _
  exact pyLowerChar_idem c

theorem pyLower_eq_self_iff {s : PyStr} : pyLower s = s ↔ ∀ c ∈ s, pyLowerChar c = c := by
  unfold pyLower
  induction s with
  | nil => simp
  | cons a t ih => simp [ih]

theorem pyLower_fixed_of_subset {s t : PyStr} (hsub : ∀ c ∈ t, c ∈ s)
    (hs : pyLower s = s) : pyLower t = t := by
  rw [pyLower_eq_self_iff]
  intro c hc
  exact pyLower_eq_self_iff.mp hs c (hsub c hc)

theorem isPySpace_pyLowerChar (c : Nat) : isPySpace (pyLowerChar c) = isPySpace c := by
  by_cases h : 65 ≤ c ∧ c ≤ 90
  · rw [pyLowerChar, if_pos h]
    have h1 : isPySpace (c + 32) = false := by
      unfold isPySpace
      simp only [Bool.or_eq_false_iff, decide_eq_false_iff_not]
      omega
    have h2 : isPySpace c = false := by
      unfold isPySpace
      simp only [Bool.or_eq_false_iff, decide_eq_false_iff_not]
      omega
    rw [h1, h2]
  · rw [pyLowerChar, if_neg h]

theorem isTabCrLf_pyLowerChar (c : Nat) : isTabCrLf (pyLowerChar c) = isTabCrLf c := by
  by_cases h : 65 ≤ c ∧ c ≤ 90
  · rw [pyLowerChar, if_pos h]
    have h1 : isTabCrLf (c + 32) = false := by
      unfold isTabCrLf
      simp only [Bool.or_eq_false_iff, decide_eq_false_iff_not]
      omega
    have h2 : isTabCrLf c = false := by
      unfold isTabCrLf
      simp only [Bool.or_eq_false_iff, decide_eq_false_iff_not]
      omega
    rw [h1, h2]
  · rw [pyLowerChar, if_neg h]

theorem isAsciiAlphaN_pyLowerChar (c : Nat) :
    isAsciiAlphaN (pyLowerChar c) = isAsciiAlphaN c := by
  by_cases h : 65 ≤ c ∧ c ≤ 90
  · rw [pyLowerChar, if_pos h]
    have h1 : isAsciiAlphaN (c + 32) = true := by
      unfold isAsciiAlphaN
      simp only [Bool.or_eq_true, Bool.and_eq_true, decide_eq_true_eq]
      omega
    have h2 : isAsciiAlphaN c = true := by
      unfold isAsciiAlphaN
      simp only [Bool.or_eq_true, Bool.and_eq_true, decide_eq_true_eq]
      omega
    rw [h1, h2]
  · rw [pyLowerChar, if_neg h]

theorem isSchemeChar_pyLowerChar (c : Nat) :
    isSchemeChar (pyLowerChar c) = isSchemeChar c := by
  by_cases h : 65 ≤ c ∧ c ≤ 90
  · rw [pyLowerChar, if_pos h]
    have h1 : isSchemeChar (c + 32) = true := by
      unfold isSchemeChar isAsciiAlphaN isAsciiDigitN
      simp only [Bool.or_eq_true, Bool.and_eq_true, decide_eq_true_eq]
      omega
    have h2 : isSchemeChar c = true := by
      unfold isSchemeChar isAsciiAlphaN isAsciiDigitN
      simp only [Bool.or_eq_true, Bool.and_eq_true, decide_eq_true_eq]
      omega
    rw [h1, h2]
  · rw [pyLowerChar, if_neg h]

theorem pyLowerChar_eq_of_lt_65 {c : Nat} (h : c < 65) : pyLowerChar c = c := by
  rw [pyLowerChar, if_neg (by omega)]

theorem pyLowerChar_eq_iff_of_lt_65 {c a : Nat} (h : a < 65) :
    pyLowerChar c = a ↔ c = a := by
  constructor
  · intro hc
    by_cases hr : 65 ≤ c ∧ c ≤ 90
    · rw [pyLowerChar, if_pos hr] at hc
      omega
    · rwa [pyLowerChar, if_neg hr] at hc
  · intro hc
    subst hc
    exact pyLowerChar_eq_of_lt_65 h

theorem isNetlocDelim_pyLowerChar (c : Nat) :
    isNetlocDelim (pyLowerChar c) = isNetlocDelim c := by
  unfold isNetlocDelim
  by_cases h : 65 ≤ c ∧ c ≤ 90
  · rw [pyLowerChar, if_pos h]
    have h1 : ∀ d, 65 ≤ d → (decide (d = 47) || decide (d = 63) || decide (d = 35)) = false := by
      intro d hd
      simp only [Bool.or_eq_false_iff, decide_eq_false_iff_not]
      omega
    rw [h1 (c + 32) (by omega), h1 c (by omega)]
  · rw [pyLowerChar, if_neg h]

theorem mem_pyLower_iff_of_lt_65 {s : PyStr} {a : Nat} (h : a < 65) :
    a ∈ pyLower s ↔ a ∈ s := by
  unfold pyLower
  rw [List.mem_map]
  constructor
  · rintro ⟨c, hc, hca⟩
    rwa [(pyLowerChar_eq_iff_of_lt_65 h).mp hca] at hc
  · intro ha
    exact ⟨a, ha, pyLowerChar_eq_of_lt_65 h⟩

/-! ## Strip lemmas -/

theorem dropWhile_eq_self_of_head {p : Nat → Bool} {s : PyStr}
    (h : ∀ a, s.head? = some a → p a = false) : s.dropWhile p = s := by
  cases s with
  | nil => rfl
  | cons a t => rw [List.dropWhile_cons_of_neg (by simp [h a rfl])]

theorem pyStrip_eq_self {s : PyStr}
    (hhead : ∀ a, s.head? = some a → isPySpace a = false)
    (hlast : ∀ a, s.getLast? = some a → isPySpace a = false) : pyStrip s = s := by
  unfold pyStrip
  rw [dropWhile_eq_self_of_head hhead]
  rw [dropWhile_eq_self_of_head (by
    intro a ha
    rw [List.head?_reverse] at ha
    exact hlast a ha)]
  exact List.reverse_reverse s

theorem pyStrip_getLast?_not_space (s : PyStr) :
    ∀ a, (pyStrip s).getLast? = some a → isPySpace a = false := by
  intro a ha
  unfold pyStrip at ha
  rw [List.getLast?_reverse] at ha
  exact head?_dropWhile_ne _ a ha

theorem head?_eq_of_ne_nil_of_append {t s : PyStr} (hne : t ≠ []) :
    ∀ r : PyStr, s = t ++ r → t.head? = s.head? := by
  intro r hs
  subst hs
  cases t with
  | nil => exact absurd rfl hne
  | cons a u => rfl

theorem pyStrip_head?_not_space (s : PyStr) :
    ∀ a, (pyStrip s).head? = some a → isPySpace a = false := by
  intro a ha
  unfold pyStrip at ha
  set l1 := s.dropWhile isPySpace with hl1
  have hsuf : l1.reverse.dropWhile isPySpace <:+ l1.reverse := List.dropWhile_suffix _
  obtain ⟨w, hw⟩ := hsuf
  have hpre : l1 = (l1.reverse.dropWhile isPySpace).reverse ++ w.reverse := by
    have := congrArg List.reverse hw
    rw [List.reverse_append, List.reverse_reverse] at this
    exact this.symm
  by_cases hn : (l1.reverse.dropWhile isPySpace).reverse = []
  · rw [hn] at ha
    simp at ha
  · have hh := head?_eq_of_ne_nil_of_append hn w.reverse hpre
    rw [ha] at hh
    have hl1h : l1.head? = some a := hh.symm ▸ hh ▸ rfl
    rw [← hh] at hl1h
    have : l1.head? = some a := by rw [← hh]
    cases hl : l1 with
    | nil => rw [hl] at this; simp at this
    | cons b t2 =>
        rw [hl] at this
        simp at this
        subst this
        have hb : isPySpace b = false := by
          have := head?_dropWhile_ne s b (by rw [← hl1, hl]; rfl)
          exact this
        exact hb

theorem pyStrip_idem (s : PyStr) : pyStrip (pyStrip s) = pyStrip s :=
  pyStrip_eq_self (pyStrip_head?_not_space s) (pyStrip_getLast?_not_space s)

theorem dropWhile_map_general (f : Nat → Nat) (p : Nat → Bool) (l : PyStr) :
    (l.map f).dropWhile p = (l.dropWhile (fun a => p (f a))).map f := by
  induction l with
  | nil => rfl
  | cons a t ih =>
      by_cases h : p (f a) <;> simp [List.dropWhile_cons, h, ih]

theorem takeWhile_map_general (f : Nat → Nat) (p : Nat → Bool) (l : PyStr) :
    (l.map f).takeWhile p = (l.takeWhile (fun a => p (f a))).map f := by
  induction l with
  | nil => rfl
  | cons a t ih =>
      by_cases h : p (f a) <;> simp [List.takeWhile_cons, h, ih]

theorem pyStrip_pyLower (s : PyStr) : pyStrip (pyLower s) = pyLower (pyStrip s) := by
  unfold pyStrip pyLower
  have hps : (fun a => isPySpace (pyLowerChar a)) = isPySpace := funext isPySpace_pyLowerChar
  rw [dropWhile_map_general, hps, ← List.map_reverse, dropWhile_map_general, hps,
    ← List.map_reverse]

/-! ## splitOnce lemmas -/

theorem splitOnce_of_not_mem {c : Nat} : ∀ {s : PyStr}, c ∉ s → splitOnce c s = none := by
  intro s
  induction s with
  | nil => intro _; rfl
  | cons d t ih =>
      intro h
      have hd : ¬d = c := fun he => h (he ▸ List.mem_cons_self d t)
      rw [splitOnce, if_neg hd, ih (fun hm => h (List.mem_cons_of_mem d hm))]
      rfl

theorem splitOnce_none_not_mem {c : Nat} : ∀ {s : PyStr}, splitOnce c s = none → c ∉ s := by
  intro s
  induction s with
  | nil => intro _ h; simp at h
  | cons d t ih =>
      intro h hm
      by_cases hd : d = c
      · rw [splitOnce, if_pos hd] at h
        exact Option.noConfusion h
      · rw [splitOnce, if_neg hd] at h
        rcases List.mem_cons.mp hm with he | ht
        · exact hd he.symm
        · cases hs : splitOnce c t with
          | none => exact ih hs ht
          | some p => rw [hs] at h; simp at h

theorem splitOnce_append {c : Nat} : ∀ {a : PyStr} (b : PyStr), c ∉ a →
    splitOnce c (a ++ c :: b) = some (a, b) := by
  intro a
  induction a with
  | nil => intro b _; simp [splitOnce]
  | cons d t ih =>
      intro b h
      have hd : ¬d = c := fun he => h (he ▸ List.mem_cons_self d t)
      rw [List.cons_append, splitOnce, if_neg hd,
        ih b (fun hm => h (List.mem_cons_of_mem d hm))]
      rfl

theorem splitOnce_eq_some {c : Nat} :
    ∀ {s a b : PyStr}, splitOnce c s = some (a, b) → s = a ++ c :: b ∧ c ∉ a := by
  intro s
  induction s with
  | nil => intro a b h; simp [splitOnce] at h
  | cons d t ih =>
      intro a b h
      by_cases hd : d = c
      · rw [splitOnce, if_pos hd] at h
        simp only [Option.some.injEq, Prod.mk.injEq] at h
        obtain ⟨h1, h2⟩ := h
        subst hd; subst h2
        rw [← h1]
        exact ⟨rfl, List.not_mem_nil _⟩
      · rw [splitOnce, if_neg hd] at h
        cases hs : splitOnce c t with
        | none => rw [hs] at h; exact Option.noConfusion h
        | some p =>
            rw [hs] at h
            obtain ⟨a0, b0⟩ := p
            simp only [Option.map_some', Option.some.injEq, Prod.mk.injEq] at h
            obtain ⟨ha, hb⟩ := h
            have hih := ih hs
            subst hb
            rw [← ha]
            refine ⟨by rw [hih.1]; rfl, ?_⟩
            intro hm
            rcases List.mem_cons.mp hm with he | hmem
            · exact hd he.symm
            · exact hih.2 hmem

/-! ## fragSplit, querySplit and paramsSplit lemmas -/

theorem fragSplit_of_not_mem {s : PyStr} (h : 35 ∉ s) : fragSplit s = (s, []) := by
  rw [fragSplit, splitOnce_of_not_mem h]

theorem querySplit_of_not_mem {s : PyStr} (h : 63 ∉ s) : querySplit s = (s, []) := by
  rw [querySplit, splitOnce_of_not_mem h]

theorem fragSplit_fst_not_mem (s : PyStr) : 35 ∉ (fragSplit s).1 := by
  rw [fragSplit]
  cases hs : splitOnce 35 s with
  | none => exact splitOnce_none_not_mem hs
  | some p => exact (splitOnce_eq_some hs).2

theorem querySplit_fst_not_mem (s : PyStr) : 63 ∉ (querySplit s).1 := by
  rw [querySplit]
  cases hs : splitOnce 63 s with
  | none => exact splitOnce_none_not_mem hs
  | some p => exact (splitOnce_eq_some hs).2

theorem fragSplit_fst_isPrefix (s : PyStr) : ∃ t, s = (fragSplit s).1 ++ t := by
  rw [fragSplit]
  cases hs : splitOnce 35 s with
  | none => exact ⟨[], by simp⟩
  | some p => exact ⟨35 :: p.2, (splitOnce_eq_some hs).1⟩

theorem querySplit_fst_isPrefix (s : PyStr) : ∃ t, s = (querySplit s).1 ++ t := by
  rw [querySplit]
  cases hs : splitOnce 63 s with
  | none => exact ⟨[], by simp⟩
  | some p => exact ⟨63 :: p.2, (splitOnce_eq_some hs).1⟩

theorem mem_of_isPrefix {a s : PyStr} (h : ∃ t, s = a ++ t) : ∀ c ∈ a, c ∈ s := by
  obtain ⟨t, rfl⟩ := h
  intro c hc
  exact List.mem_append_left t hc

theorem headI_of_isPrefix {a s : PyStr} (h : ∃ t, s = a ++ t) (hne : a ≠ []) :
    a.headI = s.headI := by
  obtain ⟨t, rfl⟩ := h
  cases a with
  | nil => exact absurd rfl hne
  | cons x u => rfl

theorem eq_take_append_of_suffix {u l : PyStr} (h : u <:+ l) :
    l = l.take (l.length - u.length) ++ u := by
  obtain ⟨w, hw⟩ := h
  subst hw
  have hlen : (w ++ u).length - u.length = w.length := by simp
  rw [hlen, List.take_left]

theorem lastSeg_suffix (q : PyStr) : lastSeg q <:+ q := by
  rw [lastSeg]
  obtain ⟨w, hw⟩ := List.takeWhile_prefix (l := q.reverse) (p := fun c => !(c == 47))
  refine ⟨w.reverse, ?_⟩
  have hrev := congrArg List.reverse hw
  rw [List.reverse_append, List.reverse_reverse] at hrev
  exact hrev

theorem paramsSplit_fst_isPrefix (q : PyStr) : ∃ t, q = (paramsSplit q).1 ++ t := by
  by_cases h47 : 47 ∈ q
  · cases hs : splitOnce 59 (lastSeg q) with
    | none =>
        simp only [paramsSplit, if_pos h47, hs]
        exact ⟨[], by simp⟩
    | some p =>
        obtain ⟨a, b⟩ := p
        simp only [paramsSplit, if_pos h47, hs]
        refine ⟨59 :: b, ?_⟩
        have hseg := (splitOnce_eq_some hs).1
        calc q = q.take (q.length - (lastSeg q).length) ++ lastSeg q :=
              eq_take_append_of_suffix (lastSeg_suffix q)
          _ = q.take (q.length - (lastSeg q).length) ++ (a ++ 59 :: b) := by rw [← hseg]
          _ = (q.take (q.length - (lastSeg q).length) ++ a) ++ 59 :: b := by
              rw [List.append_assoc]
  · cases hs : splitOnce 59 q with
    | none =>
        simp only [paramsSplit, if_neg h47, hs]
        exact ⟨[], by simp⟩
    | some p =>
        simp only [paramsSplit, if_neg h47, hs]
        exact ⟨59 :: p.2, (splitOnce_eq_some hs).1⟩

theorem normPath_isPrefix (q : PyStr) : ∃ t, q = normPath q ++ t := by
  rw [normPath]
  by_cases hq : q = [47]
  · exact ⟨q, by simp [hq]⟩
  · rw [if_neg hq]
    have hsuf : q.reverse.dropWhile (fun c => c == 47) <:+ q.reverse :=
      List.dropWhile_suffix _
    obtain ⟨w, hw⟩ := hsuf
    refine ⟨w.reverse, ?_⟩
    have := congrArg List.reverse hw
    rw [List.reverse_append, List.reverse_reverse] at this
    exact this.symm

/-! ## cleanUrl lemmas -/

theorem cleanUrl_no_tabs (s : PyStr) : ∀ c ∈ cleanUrl s, isTabCrLf c = false := by
  intro c hc
  rw [cleanUrl] at hc
  have := List.of_mem_filter hc
  simpa using this

theorem cleanUrl_subset (s : PyStr) : ∀ c ∈ cleanUrl s, c ∈ s := by
  intro c hc
  rw [cleanUrl] at hc
  exact (List.dropWhile_sublist isC0OrSpace).subset (List.mem_of_mem_filter hc)

theorem cleanUrl_eq_self {s : PyStr}
    (hh : ∀ a, s.head? = some a → isC0OrSpace a = false)
    (ht : ∀ c ∈ s, isTabCrLf c = false) : cleanUrl s = s := by
  rw [cleanUrl, dropWhile_eq_self_of_head hh]
  exact List.filter_eq_self.mpr (by intro a ha; simp [ht a ha])

theorem cleanUrl_append_of_head {a : PyStr} (b : PyStr) (hne : a ≠ [])
    (hh : isC0OrSpace a.headI = false)
    (ht : ∀ c ∈ a, isTabCrLf c = false) :
    cleanUrl (a ++ b) = a ++ b.filter (fun c => !isTabCrLf c) := by
  rw [cleanUrl]
  have hdw : (a ++ b).dropWhile isC0OrSpace = a ++ b := by
    apply dropWhile_eq_self_of_head
    intro x hx
    cases a with
    | nil => exact absurd rfl hne
    | cons y u =>
        simp only [List.cons_append, List.head?_cons, Option.some.injEq] at hx
        subst hx
        exact hh
  rw [hdw, List.filter_append]
  congr 1
  exact List.filter_eq_self.mpr (by intro x hx; simp [ht x hx])

/-! ## schemeSplit lemmas -/

theorem schemeSplit_of_wellformed {sch : PyStr} (rest : PyStr)
    (hne : sch ≠ []) (hcolon : 58 ∉ sch) (hhead : isAsciiAlphaN sch.headI = true)
    (htail : sch.tail.all isSchemeChar = true) :
    schemeSplit (sch ++ 58 :: rest) = (pyLower sch, rest) := by
  simp only [schemeSplit, splitOnce_append rest hcolon]
  rw [if_pos ⟨hne, hhead, htail⟩]

theorem schemeSplit_scheme_spec (u : PyStr) {sc rest : PyStr}
    (h : schemeSplit u = (sc, rest)) :
    sc = [] ∨ (sc ≠ [] ∧ isAsciiAlphaN sc.headI = true ∧ sc.tail.all isSchemeChar = true
      ∧ 58 ∉ sc ∧ pyLower sc = sc ∧ (∀ c ∈ sc, ∃ c0 ∈ u, c = pyLowerChar c0)) := by
  cases hs : splitOnce 58 u with
  | none =>
      simp only [schemeSplit, hs, Prod.mk.injEq] at h
      exact Or.inl h.1.symm
  | some p =>
      obtain ⟨a, b⟩ := p
      simp only [schemeSplit, hs] at h
      by_cases hcond : a ≠ [] ∧ isAsciiAlphaN a.headI = true ∧ a.tail.all isSchemeChar = true
      · rw [if_pos hcond] at h
        simp only [Prod.mk.injEq] at h
        obtain ⟨hsc, _⟩ := h
        subst hsc
        refine Or.inr ⟨?_, ?_, ?_, ?_, pyLower_idem a, ?_⟩
        · intro hmap
          exact hcond.1 (List.map_eq_nil_iff.mp hmap)
        · cases ha : a with
          | nil => exact absurd ha hcond.1
          | cons x t =>
              rw [ha] at hcond
              show isAsciiAlphaN (pyLower (x :: t)).headI = true
              show isAsciiAlphaN (pyLowerChar x) = true
              rw [isAsciiAlphaN_pyLowerChar]
              exact hcond.2.1
        · cases ha : a with
          | nil => exact absurd ha hcond.1
          | cons x t =>
              rw [ha] at hcond
              show (pyLower (x :: t)).tail.all isSchemeChar = true
              show (pyLower t).all isSchemeChar = true
              have htall := hcond.2.2
              simp only [List.tail_cons] at htall
              rw [List.all_eq_true] at htall ⊢
              intro y hy
              rw [pyLower, List.mem_map] at hy
              obtain ⟨z, hz, rfl⟩ := hy
              rw [isSchemeChar_pyLowerChar]
              exact htall z hz
        · intro hm
          rw [mem_pyLower_iff_of_lt_65 (by omega)] at hm
          exact (splitOnce_eq_some hs).2 hm
        · intro c hc
          rw [pyLower, List.mem_map] at hc
          obtain ⟨c0, hc0, rfl⟩ := hc
          refine ⟨c0, ?_, rfl⟩
          rw [(splitOnce_eq_some hs).1]
          exact List.mem_append_left _ hc0
      · rw [if_neg hcond] at h
        simp only [Prod.mk.injEq] at h
        exact Or.inl h.1.symm

/-! ## urlsplit output invariants -/

theorem schemeSplit_snd_subset (u : PyStr) {sc rest : PyStr}
    (h : schemeSplit u = (sc, rest)) : ∀ c ∈ rest, c ∈ u := by
  cases hs : splitOnce 58 u with
  | none =>
      simp only [schemeSplit, hs, Prod.mk.injEq] at h
      rw [← h.2]
      exact fun c hc => hc
  | some p =>
      obtain ⟨a, b⟩ := p
      simp only [schemeSplit, hs] at h
      by_cases hcond : a ≠ [] ∧ isAsciiAlphaN a.headI = true ∧ a.tail.all isSchemeChar = true
      · rw [if_pos hcond] at h
        simp only [Prod.mk.injEq] at h
        rw [← h.2, (splitOnce_eq_some hs).1]
        intro c hc
        exact List.mem_append_right a (List.mem_cons_of_mem 58 hc)
      · rw [if_neg hcond] at h
        simp only [Prod.mk.injEq] at h
        rw [← h.2]
        exact fun c hc => hc

theorem mem_takeWhile_pred {p : Nat → Bool} :
    ∀ {l : PyStr} {a : Nat}, a ∈ l.takeWhile p → p a = true := by
  intro l
  induction l with
  | nil => intro a h; simp [List.takeWhile] at h
  | cons b t ih =>
      intro a h
      by_cases hb : p b
      · rw [List.takeWhile_cons_of_pos hb] at h
        rcases List.mem_cons.mp h with rfl | ht
        · exact hb
        · exact ih ht
      · rw [List.takeWhile_cons_of_neg hb] at h
        simp at h

theorem headI_mem_of_ne_nil {l : PyStr} (h : l ≠ []) : l.headI ∈ l := by
  cases l with
  | nil => exact absurd rfl h
  | cons a t => exact List.mem_cons_self a t

theorem head?_eq_some_headI {l : PyStr} (h : l ≠ []) : l.head? = some l.headI := by
  cases l with
  | nil => exact absurd rfl h
  | cons a t => rfl

theorem pathRaw_head (rest2 : PyStr)
    (hh : ∀ a, rest2.head? = some a → isNetlocDelim a = true) :
    (querySplit (fragSplit rest2).1).1 = []
    ∨ (querySplit (fragSplit rest2).1).1.headI = 47 := by
  by_cases hp2 : (querySplit (fragSplit rest2).1).1 = []
  · exact Or.inl hp2
  · right
    have hp1 : (fragSplit rest2).1 ≠ [] := by
      intro he
      rw [he] at hp2
      exact hp2 rfl
    have hr2 : rest2 ≠ [] := by
      intro he
      subst he
      exact hp1 rfl
    have hh1 : (querySplit (fragSplit rest2).1).1.headI = (fragSplit rest2).1.headI :=
      headI_of_isPrefix (querySplit_fst_isPrefix _) hp2
    have hh2 : (fragSplit rest2).1.headI = rest2.headI :=
      headI_of_isPrefix (fragSplit_fst_isPrefix _) hp1
    have hdelim : isNetlocDelim rest2.headI = true :=
      hh rest2.headI (head?_eq_some_headI hr2)
    have hn35 : rest2.headI ≠ 35 := by
      intro he
      apply fragSplit_fst_not_mem rest2
      rw [← he, ← hh2]
      exact headI_mem_of_ne_nil hp1
    have hn63 : rest2.headI ≠ 63 := by
      intro he
      apply querySplit_fst_not_mem (fragSplit rest2).1
      rw [← he, ← hh2, ← hh1]
      exact headI_mem_of_ne_nil hp2
    have h47 : rest2.headI = 47 := by
      revert hdelim
      unfold isNetlocDelim
      simp only [Bool.or_eq_true, decide_eq_true_eq]
      intro hd
      rcases hd with (hd | hd) | hd
      · exact hd
      · exact absurd hd hn63
      · exact absurd hd hn35
    rw [hh1, hh2, h47]

theorem urlsplit_ok_spec {u : PyStr} {r : SplitResult} (h : urlsplit u = Except.ok r) :
    (r.scheme = [] ∨ (r.scheme ≠ [] ∧ isAsciiAlphaN r.scheme.headI = true
        ∧ r.scheme.tail.all isSchemeChar = true ∧ 58 ∉ r.scheme
        ∧ pyLower r.scheme = r.scheme
        ∧ (∀ c ∈ r.scheme, ∃ c0 ∈ cleanUrl u, c = pyLowerChar c0)))
    ∧ (∀ c ∈ r.netloc, isNetlocDelim c = false)
    ∧ bracketMismatch r.netloc = false
    ∧ 35 ∉ r.pathRaw ∧ 63 ∉ r.pathRaw
    ∧ (∀ c ∈ r.netloc, c ∈ cleanUrl u)
    ∧ (∀ c ∈ r.pathRaw, c ∈ cleanUrl u)
    ∧ (r.netloc ≠ [] → (r.pathRaw = [] ∨ r.pathRaw.headI = 47)) := by
  rcases hsp : schemeSplit (cleanUrl u) with ⟨sc, rest⟩
  have hrest : ∀ c ∈ rest, c ∈ cleanUrl u := schemeSplit_snd_subset _ hsp
  by_cases hb : rest.take 2 = [47, 47]
  · by_cases hbr : bracketMismatch ((rest.drop 2).takeWhile (fun c => !isNetlocDelim c)) = true
    · exfalso
      have herr : urlsplit u = Except.error () := by
        simp only [urlsplit, hsp, if_pos hb, if_pos hbr]
      rw [herr] at h
      exact Except.noConfusion h
    · have hux : urlsplit u = Except.ok ⟨sc,
          (rest.drop 2).takeWhile (fun c => !isNetlocDelim c),
          (querySplit (fragSplit ((rest.drop 2).dropWhile (fun c => !isNetlocDelim c))).1).1,
          (querySplit (fragSplit ((rest.drop 2).dropWhile (fun c => !isNetlocDelim c))).1).2,
          (fragSplit ((rest.drop 2).dropWhile (fun c => !isNetlocDelim c))).2⟩ := by
        simp only [urlsplit, hsp, if_pos hb, if_neg hbr]
      rw [hux] at h
      injection h with hr
      subst hr
      refine ⟨schemeSplit_scheme_spec _ hsp, ?_, by simpa using hbr, ?_, ?_, ?_, ?_, ?_⟩
      · intro c hc
        have hmem := mem_takeWhile_pred hc
        simpa using hmem
      · intro hm
        have h1 : 35 ∉ (fragSplit ((rest.drop 2).dropWhile (fun c => !isNetlocDelim c))).1 :=
          fragSplit_fst_not_mem _
        exact h1 (mem_of_isPrefix (querySplit_fst_isPrefix _) 35 hm)
      · exact querySplit_fst_not_mem _
      · intro c hc
        apply hrest
        exact List.drop_subset 2 rest ((List.takeWhile_sublist _).subset hc)
      · intro c hc
        apply hrest
        apply List.drop_subset 2 rest
        apply (List.dropWhile_sublist _).subset
        apply mem_of_isPrefix (fragSplit_fst_isPrefix _)
        exact mem_of_isPrefix (querySplit_fst_isPrefix _) c hc
      · intro _
        apply pathRaw_head
        intro a ha
        have hha := head?_dropWhile_ne _ a ha
        simpa using hha
  · have hux : urlsplit u = Except.ok ⟨sc, [], (querySplit (fragSplit rest).1).1,
        (querySplit (fragSplit rest).1).2, (fragSplit rest).2⟩ := by
      simp only [urlsplit, hsp, if_neg hb]
    rw [hux] at h
    injection h with hr
    subst hr
    refine ⟨schemeSplit_scheme_spec _ hsp, ?_, ?_, ?_, ?_, ?_, ?_, ?_⟩
    · intro c hc
      simp at hc
    · rfl
    · intro hm
      have h1 : 35 ∉ (fragSplit rest).1 := fragSplit_fst_not_mem _
      exact h1 (mem_of_isPrefix (querySplit_fst_isPrefix _) 35 hm)
    · exact querySplit_fst_not_mem _
    · intro c hc
      simp at hc
    · intro c hc
      apply hrest
      apply mem_of_isPrefix (fragSplit_fst_isPrefix _)
      exact mem_of_isPrefix (querySplit_fst_isPrefix _) c hc
    · intro hne
      exact absurd rfl hne

/-! ## urlparse lemmas -/

theorem urlparse_error_of {u : PyStr} (h : urlsplit u = Except.error ()) :
    urlparse u = Except.error () := by
  simp only [urlparse, h]

theorem urlparse_ok_of {u : PyStr} {r0 : SplitResult} (h : urlsplit u = Except.ok r0) :
    urlparse u = Except.ok ⟨r0.scheme, r0.netloc, (paramsSplit r0.pathRaw).1,
      (paramsSplit r0.pathRaw).2, r0.query, r0.fragment⟩ := by
  simp only [urlparse, h]

theorem urlparse_ok_inv {u : PyStr} {r : ParseResult} (h : urlparse u = Except.ok r) :
    ∃ r0 : SplitResult, urlsplit u = Except.ok r0 ∧ r.scheme = r0.scheme
      ∧ r.netloc = r0.netloc ∧ r.path = (paramsSplit r0.pathRaw).1 := by
  cases hs : urlsplit u with
  | error e =>
      rw [urlparse, hs] at h
      exact Except.noConfusion h
  | ok r0 =>
      rw [urlparse_ok_of hs] at h
      injection h with hr
      exact ⟨r0, rfl, by rw [← hr], by rw [← hr], by rw [← hr]⟩

theorem urlparse_error_inv {u : PyStr} (h : urlparse u = Except.error ()) :
    urlsplit u = Except.error () := by
  cases hs : urlsplit u with
  | error e => rfl
  | ok r0 =>
      rw [urlparse_ok_of hs] at h
      exact Except.noConfusion h

/-! ## urlsplit on a rebuilt url -/

theorem alpha_not_C0 {c : Nat} (h : isAsciiAlphaN c = true) : isC0OrSpace c = false := by
  revert h
  unfold isAsciiAlphaN isC0OrSpace
  simp only [Bool.or_eq_true, Bool.and_eq_true, decide_eq_true_eq, decide_eq_false_iff_not]
  omega

theorem urlsplit_scheme_netloc (s w : PyStr)
    (hne : s ≠ []) (hcolon : 58 ∉ s) (hhead : isAsciiAlphaN s.headI = true)
    (htail : s.tail.all isSchemeChar = true) (hlow : pyLower s = s)
    (hsclean : ∀ c ∈ s, isTabCrLf c = false) :
    urlsplit (s ++ [58, 47, 47] ++ w)
      = (if bracketMismatch ((w.filter (fun c => !isTabCrLf c)).takeWhile
            (fun c => !isNetlocDelim c)) then Except.error ()
         else Except.ok ⟨s,
           (w.filter (fun c => !isTabCrLf c)).takeWhile (fun c => !isNetlocDelim c),
           (querySplit (fragSplit ((w.filter (fun c => !isTabCrLf c)).dropWhile
             (fun c => !isNetlocDelim c))).1).1,
           (querySplit (fragSplit ((w.filter (fun c => !isTabCrLf c)).dropWhile
             (fun c => !isNetlocDelim c))).1).2,
           (fragSplit ((w.filter (fun c => !isTabCrLf c)).dropWhile
             (fun c => !isNetlocDelim c))).2⟩) := by
  have hclean : cleanUrl (s ++ [58, 47, 47] ++ w)
      = s ++ 58 :: 47 :: 47 :: w.filter (fun c => !isTabCrLf c) := by
    have h1 : cleanUrl ((s ++ [58, 47, 47]) ++ w)
        = (s ++ [58, 47, 47]) ++ w.filter (fun c => !isTabCrLf c) := by
      apply cleanUrl_append_of_head
      · intro he
        exact hne (List.append_eq_nil.mp he).1
      · rw [← headI_of_isPrefix (⟨[58, 47, 47], rfl⟩ : ∃ t, s ++ [58, 47, 47] = s ++ t) hne]
        exact alpha_not_C0 hhead
      · intro c hc
        rcases List.mem_append.mp hc with hcs | hcl
        · exact hsclean c hcs
        · simp only [List.mem_cons, List.not_mem_nil, or_false] at hcl
          rcases hcl with rfl | rfl | rfl <;> rfl
    rw [h1, List.append_assoc]
    rfl
  rw [urlsplit]
  rw [hclean]
  have hsp : schemeSplit (s ++ 58 :: 47 :: 47 :: w.filter (fun c => !isTabCrLf c))
      = (s, 47 :: 47 :: w.filter (fun c => !isTabCrLf c)) := by
    rw [schemeSplit_of_wellformed _ hne hcolon hhead htail, hlow]
  rw [hsp]
  rfl

theorem urlsplit_httpsPre_scheme {u : PyStr} {r0 : SplitResult}
    (h : urlsplit (httpsPre ++ u) = Except.ok r0) : r0.scheme = pystr "https" := by
  have hpre : httpsPre = pystr "https" ++ [58, 47, 47] := by decide
  rw [hpre] at h
  rw [urlsplit_scheme_netloc (pystr "https") u (by decide) (by decide) (by decide)
    (by decide) (by decide) (by decide)] at h
  by_cases hbr : bracketMismatch ((u.filter (fun c => !isTabCrLf c)).takeWhile
      (fun c => !isNetlocDelim c)) = true
  · rw [if_pos hbr] at h
    exact Except.noConfusion h
  · rw [if_neg hbr] at h
    injection h with hr
    rw [← hr]

/-! ## Further path and suffix lemmas -/

theorem mem_of_getLast? {l : PyStr} {a : Nat} (h : l.getLast? = some a) : a ∈ l := by
  rw [← List.head?_reverse] at h
  have hrev : a ∈ l.reverse := by
    cases hl : l.reverse with
    | nil => rw [hl] at h; exact Option.noConfusion h
    | cons x t =>
        rw [hl] at h
        injection h with h
        subst h
        exact List.mem_cons_self _ _
  simpa using hrev

theorem getLast?_of_suffix {u l : PyStr} (h : u <:+ l) (hne : u ≠ []) :
    u.getLast? = l.getLast? := by
  obtain ⟨w, rfl⟩ := h
  exact (List.getLast?_append_of_ne_nil _ hne).symm

theorem normPath_eq_self {q : PyStr} (h : q.getLast? ≠ some 47) : normPath q = q := by
  rw [normPath, if_neg (by intro he; rw [he] at h; exact h rfl)]
  rw [dropWhile_eq_self_of_head (by
    intro a ha
    rw [List.head?_reverse] at ha
    have : ¬a = 47 := by intro he; rw [he] at ha; exact h ha
    simpa using this)]
  exact List.reverse_reverse q

theorem normPath_nil : normPath [] = [] := by decide

theorem takeWhile_append_of_all {f : Nat → Bool} {a : PyStr} (b : PyStr)
    (h : ∀ c ∈ a, f c = true) : (a ++ b).takeWhile f = a ++ b.takeWhile f := by
  induction a with
  | nil => rfl
  | cons x t ih =>
      rw [List.cons_append, List.takeWhile_cons_of_pos (h x (List.mem_cons_self x t)),
        ih (fun c hc => h c (List.mem_cons_of_mem x hc)), List.cons_append]

theorem dropWhile_append_of_all {f : Nat → Bool} {a : PyStr} (b : PyStr)
    (h : ∀ c ∈ a, f c = true) : (a ++ b).dropWhile f = b.dropWhile f := by
  induction a with
  | nil => rfl
  | cons x t ih =>
      rw [List.cons_append, List.dropWhile_cons_of_pos (h x (List.mem_cons_self x t)),
        ih (fun c hc => h c (List.mem_cons_of_mem x hc))]

theorem alpha_not_space {c : Nat} (h : isAsciiAlphaN c = true) : isPySpace c = false := by
  revert h
  unfold isAsciiAlphaN isPySpace
  simp only [Bool.or_eq_true, Bool.and_eq_true, decide_eq_true_eq, Bool.or_eq_false_iff,
    decide_eq_false_iff_not]
  omega

/-! ## The idempotence stability condition -/

/-- Stability conditions on a normalized output y: y has no trailing
whitespace, and when y reparses successfully the params split of its path
is trivial and its host does not start with www. (the take-4 test the
source uses).  A normalized output that violates one of these can change
under a second normalization: the second parse strips another www. from
the host, splits params off the path, or strips the trailing space. -/
def idemCondB (y : PyStr) : Bool :=
  (match y.getLast? with
   | none => true
   | some c => !isPySpace c)
  && (match urlsplit y with
      | Except.ok r =>
          decide ((paramsSplit r.pathRaw).1 = r.pathRaw)
            && !(decide (r.netloc.take 4 = wwwDot))
      | Except.error _ => true)

/-! ## The reconstruction theorem: normalize_url fixes well-shaped
rebuilt urls -/

theorem normalize_url_guard {y : PyStr} (hyne : y ≠ []) (hystrip : pyStrip y = y) :
    ¬(y = [] ∨ pyStrip y = []) := by
  intro hor
  rcases hor with h | h
  · exact hyne h
  · rw [hystrip] at h
    exact hyne h

theorem normalize_url_of_parse {y : PyStr} (hyne : y ≠ []) (hylow : pyLower y = y)
    (hystrip : pyStrip y = y) :
    normalize_url y
      = match urlparse y with
        | Except.error _ => y
        | Except.ok parsed =>
            if parsed.scheme = [] then
              match urlparse (httpsPre ++ y) with
              | Except.error _ => httpsPre ++ y
              | Except.ok parsed2 => rebuild parsed2
            else rebuild parsed := by
  have hstriplow : pyStrip (pyLower y) = y := by rw [hylow, hystrip]
  rw [normalize_url, if_neg (normalize_url_guard hyne hystrip)]
  show (match urlparse (pyStrip (pyLower y)) with
    | Except.error _ => pyLower (pyStrip (pyLower y))
    | Except.ok parsed =>
        if parsed.scheme = [] then
          match urlparse (httpsPre ++ pyStrip (pyLower y)) with
          | Except.error _ => pyLower (httpsPre ++ pyStrip (pyLower y))
          | Except.ok parsed2 => rebuild parsed2
        else rebuild parsed) = _
  rw [hstriplow]
  cases hp : urlparse y with
  | error e => exact hylow
  | ok parsed =>
      show (if parsed.scheme = [] then
          match urlparse (httpsPre ++ y) with
          | Except.error _ => pyLower (httpsPre ++ y)
          | Except.ok parsed2 => rebuild parsed2
        else rebuild parsed)
        = (if parsed.scheme = [] then
            match urlparse (httpsPre ++ y) with
            | Except.error _ => httpsPre ++ y
            | Except.ok parsed2 => rebuild parsed2
          else rebuild parsed)
      by_cases hs : parsed.scheme = []
      · rw [if_pos hs, if_pos hs]
        cases hp2 : urlparse (httpsPre ++ y) with
        | error e =>
            show pyLower (httpsPre ++ y) = httpsPre ++ y
            rw [pyLower, List.map_append]
            show pyLower httpsPre ++ pyLower y = _
            rw [hylow]
            rfl
        | ok parsed2 => rfl
      · rw [if_neg hs, if_neg hs]

theorem normalize_url_fixed (s d p : PyStr)
    (hsne : s ≠ []) (hshead : isAsciiAlphaN s.headI = true)
    (hstail : s.tail.all isSchemeChar = true) (hscolon : 58 ∉ s)
    (hslow : pyLower s = s) (hsclean : ∀ c ∈ s, isTabCrLf c = false)
    (hdnd : ∀ c ∈ d, isNetlocDelim c = false) (hdlow : pyLower d = d)
    (hdclean : ∀ c ∈ d, isTabCrLf c = false)
    (hpno35 : 35 ∉ p) (hpno63 : 63 ∉ p) (hplow : pyLower p = p)
    (hpclean : ∀ c ∈ p, isTabCrLf c = false)
    (hptail : p.getLast? ≠ some 47)
    (hcond : idemCondB (s ++ schemeSep ++ d ++ p) = true) :
    normalize_url (s ++ schemeSep ++ d ++ p) = s ++ schemeSep ++ d ++ p := by
  set y := s ++ schemeSep ++ d ++ p with hy
  have hsep : schemeSep = [58, 47, 47] := rfl
  have hyassoc : y = s ++ [58, 47, 47] ++ (d ++ p) := by
    rw [hy, hsep, List.append_assoc (s ++ [58, 47, 47]) d p]
  have hyne : y ≠ [] := by
    rw [hyassoc]
    intro he
    exact hsne (List.append_eq_nil.mp (List.append_eq_nil.mp he).1).1
  have hyheadI : y.headI = s.headI := by
    rw [hyassoc, List.append_assoc]
    exact (headI_of_isPrefix ⟨[58, 47, 47] ++ (d ++ p), rfl⟩ hsne).symm
  have hylow : pyLower y = y := by
    rw [hyassoc]
    show pyLower ((s ++ [58, 47, 47]) ++ (d ++ p)) = _
    rw [pyLower, List.map_append, List.map_append, List.map_append]
    show (pyLower s ++ pyLower [58, 47, 47]) ++ (pyLower d ++ pyLower p) = _
    rw [hslow, hdlow, hplow]
    rfl
  have hws : ∀ a, y.getLast? = some a → isPySpace a = false := by
    intro a ha
    have h1 := (Bool.and_eq_true_iff.mp hcond).1
    rw [ha] at h1
    simpa using h1
  have hystrip : pyStrip y = y := by
    apply pyStrip_eq_self
    · intro a ha
      rw [head?_eq_some_headI hyne] at ha
      injection ha with ha
      subst ha
      rw [hyheadI]
      exact alpha_not_space hshead
    · exact hws
  have hdpclean : ∀ c ∈ d ++ p, isTabCrLf c = false := by
    intro c hc
    rcases List.mem_append.mp hc with hc | hc
    · exact hdclean c hc
    · exact hpclean c hc
  have hfilter : (d ++ p).filter (fun c => !isTabCrLf c) = d ++ p :=
    List.filter_eq_self.mpr (fun c hc => by simp [hdpclean c hc])
  have hsplity : urlsplit y
      = (if bracketMismatch ((d ++ p).takeWhile (fun c => !isNetlocDelim c))
         then Except.error ()
         else Except.ok ⟨s, (d ++ p).takeWhile (fun c => !isNetlocDelim c),
           (querySplit (fragSplit ((d ++ p).dropWhile (fun c => !isNetlocDelim c))).1).1,
           (querySplit (fragSplit ((d ++ p).dropWhile (fun c => !isNetlocDelim c))).1).2,
           (fragSplit ((d ++ p).dropWhile (fun c => !isNetlocDelim c))).2⟩) := by
    rw [hyassoc, urlsplit_scheme_netloc s (d ++ p) hsne hscolon hshead hstail hslow hsclean,
      hfilter]
  set nl := (d ++ p).takeWhile (fun c => !isNetlocDelim c) with hnl
  set rest2 := (d ++ p).dropWhile (fun c => !isNetlocDelim c) with hrest2
  have hno35 : 35 ∉ d ++ p := by
    intro hm
    rcases List.mem_append.mp hm with hm | hm
    · have := hdnd 35 hm
      simp [isNetlocDelim] at this
    · exact hpno35 hm
  have hno63 : 63 ∉ d ++ p := by
    intro hm
    rcases List.mem_append.mp hm with hm | hm
    · have := hdnd 63 hm
      simp [isNetlocDelim] at this
    · exact hpno63 hm
  have hr2no35 : 35 ∉ rest2 := fun hm =>
    hno35 ((List.dropWhile_sublist _).subset hm)
  have hr2no63 : 63 ∉ rest2 := fun hm =>
    hno63 ((List.dropWhile_sublist _).subset hm)
  have hfrag : fragSplit rest2 = (rest2, []) := fragSplit_of_not_mem hr2no35
  have hquery : querySplit rest2 = (rest2, []) := querySplit_of_not_mem hr2no63
  have hdplast : (d ++ p).getLast? ≠ some 47 := by
    by_cases hpe : p = []
    · subst hpe
      rw [List.append_nil]
      intro hgl
      have := hdnd 47 (mem_of_getLast? hgl)
      simp [isNetlocDelim] at this
    · rw [List.getLast?_append_of_ne_nil _ hpe]
      exact hptail
  have hr2last : rest2.getLast? ≠ some 47 := by
    by_cases hre : rest2 = []
    · rw [hre]
      simp
    · rw [getLast?_of_suffix (List.dropWhile_suffix _) hre]
      exact hdplast
  have hnormr2 : normPath rest2 = rest2 := normPath_eq_self hr2last
  by_cases hbr : bracketMismatch nl = true
  · have herr : urlsplit y = Except.error () := by rw [hsplity, if_pos hbr]
    rw [normalize_url_of_parse hyne hylow hystrip, urlparse_error_of herr]
  · have hok : urlsplit y = Except.ok ⟨s, nl, (querySplit (fragSplit rest2).1).1,
        (querySplit (fragSplit rest2).1).2, (fragSplit rest2).2⟩ := by
      rw [hsplity, if_neg hbr]
    have hpr : (querySplit (fragSplit rest2).1).1 = rest2 := by rw [hfrag, hquery]
    have hcond2 := (Bool.and_eq_true_iff.mp hcond).2
    rw [hok] at hcond2
    simp only [Bool.and_eq_true, decide_eq_true_eq, Bool.not_eq_true',
      decide_eq_false_iff_not] at hcond2
    have hparams : (paramsSplit rest2).1 = rest2 := by
      have := hcond2.1
      rwa [hpr] at this
    have hwww : ¬nl.take 4 = wwwDot := hcond2.2
    have hnllow : pyLower nl = nl := by
      apply pyLower_fixed_of_subset (s := d ++ p)
      · intro c hc
        exact (List.takeWhile_sublist _).subset hc
      · rw [pyLower, List.map_append]
        show pyLower d ++ pyLower p = _
        rw [hdlow, hplow]
    rw [normalize_url_of_parse hyne hylow hystrip, urlparse_ok_of hok]
    have hschemene : ¬(⟨s, nl, (querySplit (fragSplit rest2).1).1,
        (querySplit (fragSplit rest2).1).2,
        (fragSplit rest2).2⟩ : SplitResult).scheme = [] := hsne
    show (if s = [] then _ else rebuild _) = y
    rw [if_neg hsne]
    show s ++ schemeSep ++ stripWww (pyLower nl) ++ normPath (paramsSplit
      (querySplit (fragSplit rest2).1).1).1 = y
    rw [hpr, hparams, hnormr2, hnllow, stripWww, if_neg hwww]
    have hnlrest : nl ++ rest2 = d ++ p :=
      List.takeWhile_append_dropWhile (fun c => !isNetlocDelim c) (d ++ p)
    rw [hy]
    rw [List.append_assoc (s ++ schemeSep) nl rest2, hnlrest,
      ← List.append_assoc (s ++ schemeSep) d p]

/-! ## Transport of the invariants to the rebuilt components -/

theorem stripWww_subset (l : PyStr) : ∀ c ∈ stripWww l, c ∈ l := by
  rw [stripWww]
  by_cases h : l.take 4 = wwwDot
  · rw [if_pos h]
    exact fun c hc => List.drop_subset 4 l hc
  · rw [if_neg h]
    exact fun c hc => hc

theorem normPath_subset (q : PyStr) : ∀ c ∈ normPath q, c ∈ q :=
  mem_of_isPrefix (normPath_isPrefix q)

theorem paramsSplit_fst_subset (q : PyStr) : ∀ c ∈ (paramsSplit q).1, c ∈ q :=
  mem_of_isPrefix (paramsSplit_fst_isPrefix q)

theorem normPath_getLast?_ne_47 (q : PyStr) : (normPath q).getLast? ≠ some 47 := by
  rw [normPath_eq_dropTrailingSlashes]
  exact dropTrailingSlashes_getLast? q

/-- On a successful urlsplit of a lowered string, normalize_url fixes the
string that the source rebuilds from the parse, provided the stability
conditions hold for it. -/
theorem rebuild_fixed_of_urlsplit {v : PyStr} {r0 : SplitResult}
    (hok : urlsplit v = Except.ok r0) (hvlow : pyLower v = v)
    (hsne : r0.scheme ≠ [])
    (hcond : idemCondB (r0.scheme ++ schemeSep ++ stripWww (pyLower r0.netloc)
      ++ normPath ((paramsSplit r0.pathRaw).1)) = true) :
    normalize_url (r0.scheme ++ schemeSep ++ stripWww (pyLower r0.netloc)
      ++ normPath ((paramsSplit r0.pathRaw).1))
      = r0.scheme ++ schemeSep ++ stripWww (pyLower r0.netloc)
        ++ normPath ((paramsSplit r0.pathRaw).1) := by
  obtain ⟨hsch, hnd, _, h35, h63, hnlsub, hprsub, _⟩ := urlsplit_ok_spec hok
  rcases hsch with he | ⟨_, hshead, hstail, hscolon, hslow, hsprov⟩
  · exact absurd he hsne
  have hcleanlow : pyLower (cleanUrl v) = cleanUrl v :=
    pyLower_fixed_of_subset (cleanUrl_subset v) hvlow
  have hnllow : pyLower (pyLower r0.netloc) = pyLower r0.netloc := pyLower_idem _
  have hdsub : ∀ c ∈ stripWww (pyLower r0.netloc), ∃ c0 ∈ r0.netloc, c = pyLowerChar c0 := by
    intro c hc
    have hc2 := stripWww_subset _ c hc
    rw [pyLower, List.mem_map] at hc2
    obtain ⟨c0, hc0, rfl⟩ := hc2
    exact ⟨c0, hc0, rfl⟩
  have hpsub : ∀ c ∈ normPath ((paramsSplit r0.pathRaw).1), c ∈ r0.pathRaw := by
    intro c hc
    exact paramsSplit_fst_subset _ c (normPath_subset _ c hc)
  apply normalize_url_fixed
  · exact hsne
  · exact hshead
  · exact hstail
  · exact hscolon
  · exact hslow
  · intro c hc
    obtain ⟨c0, hc0, rfl⟩ := hsprov c hc
    rw [isTabCrLf_pyLowerChar]
    exact cleanUrl_no_tabs v c0 hc0
  · intro c hc
    obtain ⟨c0, hc0, rfl⟩ := hdsub c hc
    rw [isNetlocDelim_pyLowerChar]
    exact hnd c0 hc0
  · exact pyLower_fixed_of_subset (stripWww_subset _) (pyLower_idem _)
  · intro c hc
    obtain ⟨c0, hc0, rfl⟩ := hdsub c hc
    rw [isTabCrLf_pyLowerChar]
    exact cleanUrl_no_tabs v c0 (hnlsub c0 hc0)
  · intro hm
    exact h35 (hpsub 35 hm)
  · intro hm
    exact h63 (hpsub 63 hm)
  · apply pyLower_fixed_of_subset (s := cleanUrl v)
    · intro c hc
      exact hprsub c (hpsub c hc)
    · exact hcleanlow
  · intro c hc
    exact cleanUrl_no_tabs v c (hprsub c (hpsub c hc))
  · exact normPath_getLast?_ne_47 _
  · exact hcond

/-! ## Branch value lemmas for normalize_url -/

theorem normalize_url_val_error {x : PyStr} (hx : ¬(x = [] ∨ pyStrip x = []))
    (hp : urlparse (pyStrip (pyLower x)) = Except.error ()) :
    normalize_url x = pyLower (pyStrip (pyLower x)) := by
  rw [normalize_url, if_neg hx]
  show (match urlparse (pyStrip (pyLower x)) with
    | Except.error _ => pyLower (pyStrip (pyLower x))
    | Except.ok parsed =>
        if parsed.scheme = [] then
          match urlparse (httpsPre ++ pyStrip (pyLower x)) with
          | Except.error _ => pyLower (httpsPre ++ pyStrip (pyLower x))
          | Except.ok parsed2 => rebuild parsed2
        else rebuild parsed) = _
  rw [hp]

theorem normalize_url_val_ok {x : PyStr} {r : ParseResult}
    (hx : ¬(x = [] ∨ pyStrip x = []))
    (hp : urlparse (pyStrip (pyLower x)) = Except.ok r) (hs : r.scheme ≠ []) :
    normalize_url x = rebuild r := by
  rw [normalize_url, if_neg hx]
  show (match urlparse (pyStrip (pyLower x)) with
    | Except.error _ => pyLower (pyStrip (pyLower x))
    | Except.ok parsed =>
        if parsed.scheme = [] then
          match urlparse (httpsPre ++ pyStrip (pyLower x)) with
          | Except.error _ => pyLower (httpsPre ++ pyStrip (pyLower x))
          | Except.ok parsed2 => rebuild parsed2
        else rebuild parsed) = _
  rw [hp]
  show (if r.scheme = [] then _ else rebuild r) = rebuild r
  rw [if_neg hs]

theorem normalize_url_val_prepend_error {x : PyStr} {r : ParseResult}
    (hx : ¬(x = [] ∨ pyStrip x = []))
    (hp : urlparse (pyStrip (pyLower x)) = Except.ok r) (hs : r.scheme = [])
    (hp2 : urlparse (httpsPre ++ pyStrip (pyLower x)) = Except.error ()) :
    normalize_url x = pyLower (httpsPre ++ pyStrip (pyLower x)) := by
  rw [normalize_url, if_neg hx]
  show (match urlparse (pyStrip (pyLower x)) with
    | Except.error _ => pyLower (pyStrip (pyLower x))
    | Except.ok parsed =>
        if parsed.scheme = [] then
          match urlparse (httpsPre ++ pyStrip (pyLower x)) with
          | Except.error _ => pyLower (httpsPre ++ pyStrip (pyLower x))
          | Except.ok parsed2 => rebuild parsed2
        else rebuild parsed) = _
  rw [hp]
  show (if r.scheme = [] then
      match urlparse (httpsPre ++ pyStrip (pyLower x)) with
      | Except.error _ => pyLower (httpsPre ++ pyStrip (pyLower x))
      | Except.ok parsed2 => rebuild parsed2
    else rebuild r) = _
  rw [if_pos hs, hp2]

theorem normalize_url_val_prepend_ok {x : PyStr} {r r2 : ParseResult}
    (hx : ¬(x = [] ∨ pyStrip x = []))
    (hp : urlparse (pyStrip (pyLower x)) = Except.ok r) (hs : r.scheme = [])
    (hp2 : urlparse (httpsPre ++ pyStrip (pyLower x)) = Except.ok r2) :
    normalize_url x = rebuild r2 := by
  rw [normalize_url, if_neg hx]
  show (match urlparse (pyStrip (pyLower x)) with
    | Except.error _ => pyLower (pyStrip (pyLower x))
    | Except.ok parsed =>
        if parsed.scheme = [] then
          match urlparse (httpsPre ++ pyStrip (pyLower x)) with
          | Except.error _ => pyLower (httpsPre ++ pyStrip (pyLower x))
          | Except.ok parsed2 => rebuild parsed2
        else rebuild parsed) = _
  rw [hp]
  show (if r.scheme = [] then
      match urlparse (httpsPre ++ pyStrip (pyLower x)) with
      | Except.error _ => pyLower (httpsPre ++ pyStrip (pyLower x))
      | Except.ok parsed2 => rebuild parsed2
    else rebuild r) = _
  rw [if_pos hs, hp2]

/-! ## Claim C3: idempotence of normalize_url -/

/-- C3 counterexample: normalize_url is not idempotent.  On
www.www.example.com the first pass prepends https:// and strips one www.
prefix, giving https://www.example.com; the second pass strips another
www. prefix, giving https://example.com. -/
theorem c3_counterexample :
    normalize_url (normalize_url (pystr "www.www.example.com"))
      ≠ normalize_url (pystr "www.www.example.com") := by decide

/-- C3 (amended): normalize_url is idempotent on every input whose
normalized output satisfies the stability conditions idemCondB: no
trailing whitespace, and on reparse a trivial params split and a host that
does not start with www.  (Counterexamples outside these conditions:
www.www.example.com strips a second www., http://x/a;b/ loses a params
segment on the second pass, and http://a/b ?q keeps a trailing space that
the second pass strips.) -/
theorem c3_idempotent_on_stable (x : PyStr)
    (hcond : idemCondB (normalize_url x) = true) :
    normalize_url (normalize_url x) = normalize_url x := by
  by_cases hx : x = [] ∨ pyStrip x = []
  · have h0 : normalize_url x = [] := by rw [normalize_url, if_pos hx]
    rw [h0]
    decide
  · set u := pyStrip (pyLower x) with hu
    have hulow : pyLower u = u := by
      rw [hu, pyStrip_pyLower, pyLower_idem, ← pyStrip_pyLower]
    have hustrip : pyStrip u = u := pyStrip_idem _
    have hune : u ≠ [] := by
      rw [hu, pyStrip_pyLower]
      intro he
      apply hx
      right
      have hlen := congrArg List.length he
      rw [pyLower, List.length_map] at hlen
      exact List.length_eq_zero.mp hlen
    have hulast : ∀ a, u.getLast? = some a → isPySpace a = false :=
      pyStrip_getLast?_not_space (pyLower x)
    have hguard_u : ¬(u = [] ∨ pyStrip u = []) := normalize_url_guard hune hustrip
    have hprelow : pyLower (httpsPre ++ u) = httpsPre ++ u := by
      rw [pyLower, List.map_append]
      show pyLower httpsPre ++ pyLower u = _
      rw [hulow]
      rfl
    cases hp : urlparse u with
    | error e =>
        have hp' : urlparse u = Except.error () := by
          cases e
          exact hp
        have hy : normalize_url x = u := by
          rw [normalize_url_val_error hx hp', ← hu, hulow]
        rw [hy]
        have hval : normalize_url u = pyLower (pyStrip (pyLower u)) :=
          normalize_url_val_error hguard_u (by rw [hulow, hustrip]; exact hp')
        rw [hval, hulow, hustrip, hulow]
    | ok r =>
        by_cases hs : r.scheme = []
        · cases hp2 : urlparse (httpsPre ++ u) with
          | error e2 =>
              have hp2' : urlparse (httpsPre ++ u) = Except.error () := by
                cases e2
                exact hp2
              have hy : normalize_url x = httpsPre ++ u := by
                rw [normalize_url_val_prepend_error hx hp hs hp2', ← hu, hprelow]
              rw [hy]
              have hy2ne : httpsPre ++ u ≠ [] := by
                intro he
                have h1 := (List.append_eq_nil.mp he).1
                revert h1
                decide
              have hy2strip : pyStrip (httpsPre ++ u) = httpsPre ++ u := by
                apply pyStrip_eq_self
                · intro a ha
                  have hh : httpsPre.head? = (httpsPre ++ u).head? :=
                    head?_eq_of_ne_nil_of_append (by decide) u rfl
                  rw [← hh] at ha
                  have h104 : (some 104 : Option Nat) = some a := by rw [← ha]; rfl
                  injection h104 with h104
                  subst h104
                  decide
                · intro a ha
                  rw [List.getLast?_append_of_ne_nil _ hune] at ha
                  exact hulast a ha
              have hguard2 : ¬(httpsPre ++ u = [] ∨ pyStrip (httpsPre ++ u) = []) :=
                normalize_url_guard hy2ne hy2strip
              have hval : normalize_url (httpsPre ++ u)
                  = pyLower (pyStrip (pyLower (httpsPre ++ u))) :=
                normalize_url_val_error hguard2 (by rw [hprelow, hy2strip]; exact hp2')
              rw [hval, hprelow, hy2strip, hprelow]
          | ok r2 =>
              obtain ⟨r20, hsplit2, hsch2, hnl2, hpath2⟩ := urlparse_ok_inv hp2
              have hr2scheme : r20.scheme = pystr "https" :=
                urlsplit_httpsPre_scheme hsplit2
              have hy : normalize_url x = rebuild r2 :=
                normalize_url_val_prepend_ok hx hp hs hp2
              have hrw : rebuild r2 = r20.scheme ++ schemeSep
                  ++ stripWww (pyLower r20.netloc)
                  ++ normPath ((paramsSplit r20.pathRaw).1) := by
                rw [rebuild, hsch2, hnl2, hpath2]
              rw [hy, hrw]
              apply rebuild_fixed_of_urlsplit hsplit2 hprelow
              · rw [hr2scheme]
                decide
              · rw [← hrw, ← hy]
                exact hcond
        · obtain ⟨r0, hsplit, hsch, hnl, hpath⟩ := urlparse_ok_inv hp
          have hy : normalize_url x = rebuild r := normalize_url_val_ok hx hp hs
          have hrw : rebuild r = r0.scheme ++ schemeSep ++ stripWww (pyLower r0.netloc)
              ++ normPath ((paramsSplit r0.pathRaw).1) := by
            rw [rebuild, hsch, hnl, hpath]
          rw [hy, hrw]
          apply rebuild_fixed_of_urlsplit hsplit hulow
          · rw [← hsch]
            exact hs
          · rw [← hrw, ← hy]
            exact hcond

/-- C3 witness: the amended idempotence applied at a concrete url whose
normalized output satisfies the stability conditions. -/
theorem c3_idempotent_on_stable_witness :
    idemCondB (normalize_url (pystr "HTTPS://www.Example.COM/a/b/")) = true
    ∧ normalize_url (normalize_url (pystr "HTTPS://www.Example.COM/a/b/"))
        = normalize_url (pystr "HTTPS://www.Example.COM/a/b/") :=
  ⟨by decide, c3_idempotent_on_stable (pystr "HTTPS://www.Example.COM/a/b/") (by decide)⟩

example : normalize_url (pystr "HTTPS://Example.COM/") = pystr "https://example.com" := by decide

example : normalize_url (pystr "example.com") = pystr "https://example.com" := by decide

example : normalize_url (pystr "   ") = pystr "" := by decide

example : normalize_url (pystr "https://www.example.com") = pystr "https://example.com" := by
  decide

example : normalize_url (pystr "www.www.example.com") = pystr "https://www.example.com" := by
  decide

example : normalize_url (pystr "https://example.com/a//") = pystr "https://example.com/a" := by
  decide

end KeyPy
